import Mathlib

/-!
# Verification of the Pysegine search engine (`src/search.py`)

A shallow embedding of the inverted-index search engine:

* strings are modelled as `List Char`;
* Python's `dict` (`self.inverted_index`) is modelled as an association
  list with unique keys, insertion at the back (Python dicts preserve
  insertion order);
* document identifiers are an arbitrary linearly ordered type `α`
  (the reference code uses file-path strings; the algorithm only needs
  equality and `min`);
* the `while True:` loop of `BOWInvertedIndexEngine.search` is modelled
  by a well-founded recursion (`searchLoop`), together with a
  fuel-indexed unfolding (`runLoop`) used to state termination;
* a Python runtime exception (the reference raises `IndexError` from
  `current_ids[0]` when `current_ids` is empty) is modelled by `none` in
  the `Option` result of `search`;
* `pylru.lrucache` is modelled by a most-recently-used-first association
  list truncated to its capacity.

ASCII caveat: Python's `\w` character class and `str.lower` are
Unicode-aware; the embedding uses Lean's ASCII `Char.isAlphanum` /
`Char.toLower`, i.e. it models the ASCII fragment of the reference
tokenizer, which is exact on ASCII input.
-/

namespace Pysegine

/-! ## Character-level helpers for the tokenizer -/

/-- The regex class `\w` of `re.sub(r'[^\w ]', ' ', text)`: alphanumeric or
underscore (ASCII fragment). -/
def isWordChar (c : Char) : Bool := c.isAlphanum || c == '_'

/-- One character of `re.sub(r'[^\w ]', ' ', text)`: characters matching
`[^\w ]` (neither word characters nor a space) are replaced by a space. -/
def subChar (c : Char) : Char := if isWordChar c || c == ' ' then c else ' '

/-- Model of Python's `text.split(' ')`: split at every single space,
keeping empty pieces (`''.split(' ') == ['']`). -/
def splitOnSpace : List Char → List (List Char)
  | [] => [[]]
  | c :: cs =>
    if c = ' ' then [] :: splitOnSpace cs
    else
      match splitOnSpace cs with
      | [] => [[c]]
      | w :: ws => (c :: w) :: ws

/-- A term: a normalized token, modelled as a character list. -/
abbrev Term := List Char

/-- `BOWInvertedIndexEngine.parse_text_to_word` (`src/search.py:122-133`):
replace `[^\w ]` by a space, lowercase, split on spaces, drop empty words,
and collapse duplicates (Python returns a `set`; the embedding returns a
duplicate-free list, fixing one enumeration order of that set). -/
def parse_text_to_word (text : List Char) : List Term :=
  ((splitOnSpace ((text.map subChar).map Char.toLower)).filter
    (fun w => w ≠ [])).dedup

/-! ## Facts about `Char.toLower` (ASCII lowercasing) -/

theorem toNat_ofNat_valid {n : Nat} (h : n.isValidChar) : (Char.ofNat n).toNat = n := by
  rw [Char.ofNat, dif_pos h]
  rfl

theorem toLower_def (c : Char) :
    c.toLower = if 65 ≤ c.toNat ∧ c.toNat ≤ 90 then Char.ofNat (c.toNat + 32) else c := by
  rfl

theorem isLower_iff (c : Char) : c.isLower = true ↔ 97 ≤ c.toNat ∧ c.toNat ≤ 122 := by
  simp [Char.isLower, UInt32.le_def, BitVec.le_def]
  exact Iff.rfl

theorem valid_of_small {n : Nat} (h : n ≤ 200) : n.isValidChar := by
  left
  omega

theorem toNat_toLower_of_upper (c : Char) (h : 65 ≤ c.toNat ∧ c.toNat ≤ 90) :
    c.toLower.toNat = c.toNat + 32 := by
  rw [toLower_def, if_pos h, toNat_ofNat_valid (valid_of_small (by omega))]

theorem toLower_eq_self (c : Char) (h : ¬(65 ≤ c.toNat ∧ c.toNat ≤ 90)) :
    c.toLower = c := by
  rw [toLower_def, if_neg h]

theorem toLower_toLower (c : Char) : c.toLower.toLower = c.toLower := by
  by_cases h : 65 ≤ c.toNat ∧ c.toNat ≤ 90
  · have h2 := toNat_toLower_of_upper c h
    apply toLower_eq_self
    omega
  · rw [toLower_eq_self c h, toLower_eq_self c h]

theorem isWordChar_toLower (c : Char) (h : isWordChar c = true) :
    isWordChar c.toLower = true := by
  by_cases hu : 65 ≤ c.toNat ∧ c.toNat ≤ 90
  · have h2 := toNat_toLower_of_upper c hu
    have hl : c.toLower.isLower = true := by
      rw [isLower_iff]
      omega
    simp [isWordChar, Char.isAlphanum, Char.isAlpha, hl]
  · rwa [toLower_eq_self c hu]

theorem isWordChar_ne_space {c : Char} (h : isWordChar c = true) : c ≠ ' ' := by
  intro he
  subst he
  simp [isWordChar] at h

theorem subChar_of_wordChar {c : Char} (h : isWordChar c = true) : subChar c = c := by
  simp [subChar, h]

theorem subChar_spec (c : Char) : isWordChar (subChar c) = true ∨ subChar c = ' ' := by
  by_cases h : isWordChar c = true
  · left
    rwa [subChar_of_wordChar h]
  · by_cases hs : c = ' '
    · right
      simp [subChar, hs]
    · right
      simp [subChar, h, hs]

/-! ## Facts about `splitOnSpace` and tokens -/

theorem map_eq_self {α : Type} {f : α → α} {l : List α} (h : ∀ c ∈ l, f c = c) :
    l.map f = l := by
  induction l with
  | nil => rfl
  | cons a as ih =>
    rw [List.map_cons, h a (List.mem_cons_self _ _),
      ih (fun c hc => h c (List.mem_cons_of_mem _ hc))]

theorem splitOnSpace_chars {s : List Char} {w : List Char} (hw : w ∈ splitOnSpace s)
    {c : Char} (hc : c ∈ w) : c ∈ s ∧ c ≠ ' ' := by
  induction s generalizing w with
  | nil =>
    simp [splitOnSpace] at hw
    subst hw
    simp at hc
  | cons a as ih =>
    by_cases ha : a = ' '
    · rw [splitOnSpace, if_pos ha] at hw
      rcases List.mem_cons.mp hw with h | h
      · subst h
        simp at hc
      · have := ih h hc
        exact ⟨List.mem_cons_of_mem _ this.1, this.2⟩
    · rw [splitOnSpace, if_neg ha] at hw
      rcases hsp : splitOnSpace as with - | ⟨w0, ws⟩
      · rw [hsp] at hw
        simp at hw
        subst hw
        simp at hc
        subst hc
        exact ⟨List.mem_cons_self _ _, ha⟩
      · rw [hsp] at hw
        rcases List.mem_cons.mp hw with h | h
        · subst h
          rcases List.mem_cons.mp hc with h | h
          · subst h
            exact ⟨List.mem_cons_self _ _, ha⟩
          · have := ih (by rw [hsp]; exact List.mem_cons_self _ _) h
            exact ⟨List.mem_cons_of_mem _ this.1, this.2⟩
        · have := ih (by rw [hsp]; exact List.mem_cons_of_mem _ h) hc
          exact ⟨List.mem_cons_of_mem _ this.1, this.2⟩

theorem splitOnSpace_no_space {s : List Char} (h : ∀ c ∈ s, c ≠ ' ') :
    splitOnSpace s = [s] := by
  induction s with
  | nil => rfl
  | cons a as ih =>
    rw [splitOnSpace, if_neg (h a (List.mem_cons_self _ _))]
    rw [ih (fun c hc => h c (List.mem_cons_of_mem _ hc))]

theorem splitOnSpace_sep {s t : List Char} (h : ∀ c ∈ s, c ≠ ' ') :
    splitOnSpace (s ++ ' ' :: t) = s :: splitOnSpace t := by
  induction s with
  | nil =>
    simp [splitOnSpace]
  | cons a as ih =>
    rw [List.cons_append, splitOnSpace, if_neg (h a (List.mem_cons_self _ _)),
      ih (fun c hc => h c (List.mem_cons_of_mem _ hc))]

/-- Every token produced by the tokenizer is non-empty and consists of
already-lowercased word characters. -/
theorem token_chars {t : List Char} {w : Term} (h : w ∈ parse_text_to_word t) :
    w ≠ [] ∧ ∀ c ∈ w, isWordChar c = true ∧ c.toLower = c := by
  rw [parse_text_to_word, List.mem_dedup, List.mem_filter] at h
  obtain ⟨hmem, hne⟩ := h
  refine ⟨by simpa using hne, fun c hc => ?_⟩
  obtain ⟨hcs, hcne⟩ := splitOnSpace_chars hmem hc
  rw [List.mem_map] at hcs
  obtain ⟨c1, hc1, rfl⟩ := hcs
  rw [List.mem_map] at hc1
  obtain ⟨c0, _, rfl⟩ := hc1
  rcases subChar_spec c0 with hw | hsp
  · exact ⟨isWordChar_toLower _ hw, toLower_toLower _⟩
  · rw [hsp] at hcne
    simp at hcne

/-- Tokenizing a single well-formed token yields exactly that token. -/
theorem parse_single_token {w : Term} (hne : w ≠ [])
    (hc : ∀ c ∈ w, isWordChar c = true ∧ c.toLower = c) :
    parse_text_to_word w = [w] := by
  have hmap : (w.map subChar).map Char.toLower = w := by
    rw [List.map_map]
    apply map_eq_self
    intro c hcw
    simp [Function.comp, subChar_of_wordChar (hc c hcw).1, (hc c hcw).2]
  rw [parse_text_to_word, hmap,
    splitOnSpace_no_space (fun c hcw => isWordChar_ne_space (hc c hcw).1)]
  simp [List.filter, hne]

/-- Tokenizing `"T1 T2"` for two distinct well-formed tokens yields both. -/
theorem parse_two_tokens {w1 w2 : Term} (h1 : w1 ≠ []) (h2 : w2 ≠ [])
    (hc1 : ∀ c ∈ w1, isWordChar c = true ∧ c.toLower = c)
    (hc2 : ∀ c ∈ w2, isWordChar c = true ∧ c.toLower = c)
    (hne : w1 ≠ w2) :
    parse_text_to_word (w1 ++ ' ' :: w2) = [w1, w2] := by
  have hmap : ((w1 ++ ' ' :: w2).map subChar).map Char.toLower = w1 ++ ' ' :: w2 := by
    rw [List.map_map]
    apply map_eq_self
    intro c hcw
    rcases List.mem_append.mp hcw with h | h
    · simp [Function.comp, subChar_of_wordChar (hc1 c h).1, (hc1 c h).2]
    · rcases List.mem_cons.mp h with h | h
      · subst h
        rfl
      · simp [Function.comp, subChar_of_wordChar (hc2 c h).1, (hc2 c h).2]
  rw [parse_text_to_word, hmap,
    splitOnSpace_sep (fun c hcw => isWordChar_ne_space (hc1 c hcw).1),
    splitOnSpace_no_space (fun c hcw => isWordChar_ne_space (hc2 c hcw).1)]
  have hd : ([w1, w2] : List Term).dedup = [w1, w2] := by
    rw [List.dedup_cons_of_not_mem (by simp [hne]),
      List.dedup_cons_of_not_mem (List.not_mem_nil _), List.dedup_nil]
  simp [h1, h2, hd]

/-! ## The inverted index (`BOWInvertedIndexEngine.__init__` / `process_corpus`) -/

variable {α : Type} [LinearOrder α]

/-- `self.inverted_index`: a Python dict modelled as an association list with
unique keys; a new key is appended at the back (Python dicts preserve
insertion order). -/
abbrev Index (α : Type) := List (Term × List α)

/-- Dict lookup `self.inverted_index[word]`, `none` when the key is absent. -/
def lookupIdx : Index α → Term → Option (List α)
  | [], _ => none
  | (k, v) :: rest, w => if k = w then some v else lookupIdx rest w

/-- One iteration of the `process_corpus` loop body:
`if word not in index: index[word] = []` followed by
`index[word].append(id)`. -/
def addWord : Index α → Term → α → Index α
  | [], w, id => [(w, [id])]
  | (k, v) :: rest, w, id =>
    if k = w then (k, v ++ [id]) :: rest else (k, v) :: addWord rest w id

/-- `BOWInvertedIndexEngine.process_corpus` (`src/search.py:80-85`). -/
def process_corpus (idx : Index α) (id : α) (text : List Char) : Index α :=
  (parse_text_to_word text).foldl (fun i w => addWord i w id) idx

/-- The index obtained by a sequence of `process_corpus` calls, in order,
starting from the empty dict of `__init__`. -/
def buildIndex (docs : List (α × List Char)) : Index α :=
  docs.foldl (fun i d => process_corpus i d.1 d.2) []

/-- The intended postings list of a term: the identifiers of the documents
whose token set contains it, in processing order. -/
def postings (docs : List (α × List Char)) (w : Term) : List α :=
  (docs.filter (fun d => w ∈ parse_text_to_word d.2)).map Prod.fst

theorem lookupIdx_addWord (idx : Index α) (v : Term) (id : α) (w : Term) :
    lookupIdx (addWord idx v id) w =
      if v = w then some (((lookupIdx idx w).getD []) ++ [id]) else lookupIdx idx w := by
  induction idx with
  | nil =>
    by_cases h : v = w
    · subst h
      simp [addWord, lookupIdx]
    · simp [addWord, lookupIdx, h, Ne.symm h]
  | cons p rest ih =>
    obtain ⟨k, val⟩ := p
    by_cases hk : k = v
    · subst hk
      by_cases hw : k = w
      · subst hw
        simp [addWord, lookupIdx]
      · simp [addWord, lookupIdx, hw, Ne.symm hw]
    · by_cases hw : k = w
      · subst hw
        simp [addWord, lookupIdx, hk, Ne.symm hk]
      · simp [addWord, lookupIdx, hk, hw, ih]

theorem lookupIdx_foldl_addWord (ws : List Term) (hnd : ws.Nodup) (idx : Index α)
    (id : α) (w : Term) :
    lookupIdx (ws.foldl (fun i v => addWord i v id) idx) w =
      if w ∈ ws then some (((lookupIdx idx w).getD []) ++ [id]) else lookupIdx idx w := by
  induction ws generalizing idx with
  | nil => simp
  | cons v vs ih =>
    rw [List.foldl_cons, ih (List.Nodup.of_cons hnd)]
    by_cases hv : v = w
    · subst hv
      have hnm : v ∉ vs := (List.nodup_cons.mp hnd).1
      simp [hnm, lookupIdx_addWord]
    · by_cases hm : w ∈ vs
      · simp [hm, lookupIdx_addWord, hv]
      · have hnw : ¬ w ∈ v :: vs := by
          simp [hm, Ne.symm hv]
        simp [hm, hnw, lookupIdx_addWord, hv]

theorem lookupIdx_process_corpus (idx : Index α) (id : α) (text : List Char) (w : Term) :
    lookupIdx (process_corpus idx id text) w =
      if w ∈ parse_text_to_word text then some (((lookupIdx idx w).getD []) ++ [id])
      else lookupIdx idx w := by
  have hnd : (parse_text_to_word text).Nodup := by
    rw [parse_text_to_word]
    exact List.nodup_dedup _
  rw [process_corpus, lookupIdx_foldl_addWord _ hnd]

theorem lookupIdx_foldl_docs (docs : List (α × List Char)) (idx : Index α) (w : Term) :
    lookupIdx (docs.foldl (fun i d => process_corpus i d.1 d.2) idx) w =
      if postings docs w = [] then lookupIdx idx w
      else some (((lookupIdx idx w).getD []) ++ postings docs w) := by
  induction docs generalizing idx with
  | nil => simp [postings]
  | cons d ds ih =>
    rw [List.foldl_cons, ih]
    by_cases hd : w ∈ parse_text_to_word d.2
    · have hp : postings (d :: ds) w = d.1 :: postings ds w := by
        simp [postings, List.filter_cons, hd]
      rw [hp]
      by_cases hps : postings ds w = []
      · simp [hps, lookupIdx_process_corpus, hd]
      · simp only [hps, if_neg (List.cons_ne_nil _ _), if_neg hps,
          lookupIdx_process_corpus, hd, if_pos, Option.getD_some]
        rw [List.append_assoc]
        rfl
    · have hp : postings (d :: ds) w = postings ds w := by
        simp [postings, List.filter_cons, hd]
      rw [hp, lookupIdx_process_corpus]
      simp [hd]

/-- Characterization of the built index: a term maps to exactly the list of
identifiers of the documents containing it, and is absent iff no document
contains it. -/
theorem lookupIdx_buildIndex (docs : List (α × List Char)) (w : Term) :
    lookupIdx (buildIndex docs) w =
      if postings docs w = [] then none else some (postings docs w) := by
  rw [buildIndex, lookupIdx_foldl_docs]
  simp [lookupIdx]

/-! ## `BOWInvertedIndexEngine.search` (`src/search.py:87-120`)

The loop state is the list of `(postings list, cursor)` pairs, one per
query word, mirroring `query_words` / `query_words_index`, plus the
accumulated `result`. -/

/-- The `current_ids` gathering loop (`src/search.py:100-109`): `none`
models the early `return result` taken when some cursor has moved past the
end of its postings list. -/
def currentIds : List (List α × Nat) → Option (List α)
  | [] => some []
  | p :: ps =>
    match p.1.get? p.2 with
    | none => none
    | some v =>
      match currentIds ps with
      | none => none
      | some vs => some (v :: vs)

/-- Python's `min(current_ids)` on the non-empty list `x :: xs`. -/
def listMin (x : α) (xs : List α) : α := xs.foldl min x

/-- Python's `list.index(a)`: position of the first occurrence. -/
def indexOfV (a : α) : List α → Nat
  | [] => 0
  | b :: l => if b = a then 0 else indexOfV a l + 1

/-- `query_words_index[min_val_pos] += 1`. -/
def bumpAt : List (List α × Nat) → Nat → List (List α × Nat)
  | [], _ => []
  | p :: ps, 0 => (p.1, p.2 + 1) :: ps
  | p :: ps, n + 1 => p :: bumpAt ps n

/-- One iteration of the `while True:` loop (`src/search.py:99-120`).
`Sum.inr r` means the loop exits with outcome `r` (`none` being the
`IndexError` raised by `current_ids[0]` on an empty `current_ids`);
`Sum.inl` is the next state. -/
def searchStep (ps : List (List α × Nat)) (result : List α) :
    List (List α × Nat) × List α ⊕ Option (List α) :=
  match currentIds ps with
  | none => Sum.inr (some result)
  | some [] => Sum.inr none
  | some (i :: ids) =>
    if (i :: ids).all (fun x => x = i) then
      Sum.inl (ps.map (fun p => (p.1, p.2 + 1)), result ++ [i])
    else
      Sum.inl (bumpAt ps (indexOfV (listMin i ids) (i :: ids)), result)

/-- Total cursor slack, the termination measure of the loop. -/
def cursorMeasure (ps : List (List α × Nat)) : Nat :=
  (ps.map (fun p => p.1.length - p.2)).sum

theorem currentIds_bound {ps : List (List α × Nat)} {l : List α}
    (h : currentIds ps = some l) : ∀ p ∈ ps, p.2 < p.1.length := by
  induction ps generalizing l with
  | nil => simp
  | cons p ps ih =>
    intro q hq
    rw [currentIds] at h
    rcases hg : p.1.get? p.2 with - | v
    · rw [hg] at h
      simp at h
    · rw [hg] at h
      rcases hc : currentIds ps with - | vs
      · rw [hc] at h
        simp at h
      · rcases List.mem_cons.mp hq with rfl | hq2
        · exact List.get?_eq_some.mp hg |>.1
        · exact ih hc q hq2

theorem currentIds_length {ps : List (List α × Nat)} {l : List α}
    (h : currentIds ps = some l) : l.length = ps.length := by
  induction ps generalizing l with
  | nil =>
    simp [currentIds] at h
    subst h
    rfl
  | cons p ps ih =>
    rw [currentIds] at h
    rcases hg : p.1.get? p.2 with - | v
    · rw [hg] at h
      simp at h
    · rw [hg] at h
      rcases hc : currentIds ps with - | vs
      · rw [hc] at h
        simp at h
      · rw [hc] at h
        simp at h
        subst h
        simp [ih hc]

theorem listMin_mem (x : α) (xs : List α) : listMin x xs ∈ x :: xs := by
  rw [listMin]
  induction xs generalizing x with
  | nil => simp
  | cons y ys ih =>
    rw [List.foldl_cons]
    rcases List.mem_cons.mp (ih (min x y)) with h | h
    · rw [h]
      rcases min_choice x y with hm | hm <;> rw [hm] <;> simp
    · exact List.mem_cons_of_mem _ (List.mem_cons_of_mem _ h)

theorem indexOfV_lt_length {a : α} {l : List α} (h : a ∈ l) : indexOfV a l < l.length := by
  induction l with
  | nil => simp at h
  | cons b bs ih =>
    rw [indexOfV]
    by_cases hb : b = a
    · simp [hb]
    · rcases List.mem_cons.mp h with h' | h'
      · exact absurd h'.symm hb
      · simpa [hb, Nat.succ_lt_succ_iff] using ih h'

theorem bumpAt_measure {ps : List (List α × Nat)} (hb : ∀ p ∈ ps, p.2 < p.1.length)
    {pos : Nat} (hpos : pos < ps.length) :
    cursorMeasure (bumpAt ps pos) < cursorMeasure ps := by
  induction ps generalizing pos with
  | nil => simp at hpos
  | cons p ps ih =>
    rcases pos with - | pos
    · have hp := hb p (List.mem_cons_self _ _)
      simp only [bumpAt, cursorMeasure, List.map_cons, List.sum_cons]
      have : p.1.length - (p.2 + 1) < p.1.length - p.2 := by omega
      omega
    · simp only [bumpAt, cursorMeasure, List.map_cons, List.sum_cons]
      have := ih (fun q hq => hb q (List.mem_cons_of_mem _ hq))
        (Nat.lt_of_succ_lt_succ hpos)
      simp only [cursorMeasure] at this
      omega

theorem advanceAll_measure {ps : List (List α × Nat)} (hb : ∀ p ∈ ps, p.2 < p.1.length)
    (hne : ps ≠ []) :
    cursorMeasure (ps.map (fun p => (p.1, p.2 + 1))) < cursorMeasure ps := by
  induction ps with
  | nil => exact absurd rfl hne
  | cons p ps ih =>
    have hp := hb p (List.mem_cons_self _ _)
    simp only [List.map_cons, cursorMeasure, List.sum_cons]
    rcases ps with - | ⟨q, qs⟩
    · simp
      omega
    · have := ih (fun q hq => hb q (List.mem_cons_of_mem _ hq)) (List.cons_ne_nil _ _)
      simp only [cursorMeasure] at this
      omega

theorem searchStep_decreases {ps ps' : List (List α × Nat)} {res res' : List α}
    (h : searchStep ps res = Sum.inl (ps', res')) :
    cursorMeasure ps' < cursorMeasure ps := by
  rw [searchStep] at h
  rcases hc : currentIds ps with - | ids
  · rw [hc] at h
    simp at h
  · rw [hc] at h
    rcases ids with - | ⟨i, ids⟩
    · simp at h
    · have hb := currentIds_bound hc
      have hlen := currentIds_length hc
      have hne : ps ≠ [] := by
        intro he
        subst he
        simp at hlen
      simp only at h
      by_cases hall : ((i :: ids).all (fun x => x = i)) = true
      · rw [if_pos hall] at h
        cases h
        exact advanceAll_measure hb hne
      · rw [if_neg hall] at h
        cases h
        refine bumpAt_measure hb ?_
        rw [← hlen]
        exact indexOfV_lt_length (listMin_mem i ids)

/-- The `while True:` loop, as a total function: well-founded recursion on
the cursor measure (the code's own termination argument). -/
def searchLoop (ps : List (List α × Nat)) (result : List α) : Option (List α) :=
  match h : searchStep ps result with
  | Sum.inr r => r
  | Sum.inl (ps', result') => searchLoop ps' result'
termination_by cursorMeasure ps
decreasing_by exact searchStep_decreases h

/-- The loop again, with explicit fuel: `none` means "still running after
`n` iterations". Used to state that the loop terminates. -/
def runLoop : Nat → List (List α × Nat) → List α → Option (Option (List α))
  | 0, _, _ => none
  | n + 1, ps, result =>
    match searchStep ps result with
    | Sum.inr r => some r
    | Sum.inl (ps', result') => runLoop n ps' result'

/-- `BOWInvertedIndexEngine.search` (`src/search.py:87-120`): `some r`
models a normal return of `r`; `none` models an uncaught `IndexError`. -/
def search (idx : Index α) (query : List Char) : Option (List α) :=
  let query_words := parse_text_to_word query
  if query_words.any (fun w => (lookupIdx idx w).isNone) then some []
  else searchLoop (query_words.map (fun w => ((lookupIdx idx w).getD [], 0))) []

theorem searchLoop_unfold (ps : List (List α × Nat)) (result : List α) :
    searchLoop ps result =
      match searchStep ps result with
      | Sum.inr r => r
      | Sum.inl (ps', result') => searchLoop ps' result' := by
  rw [searchLoop.eq_def]
  rcases hs : searchStep ps result with s | r
  · simp [hs]
  · simp [hs]

/-- If the fuelled loop finishes, it agrees with the loop. -/
theorem runLoop_sound : ∀ {n : Nat} {ps : List (List α × Nat)} {res : List α}
    {r : Option (List α)}, runLoop n ps res = some r → searchLoop ps res = r := by
  intro n
  induction n with
  | zero =>
    intro ps res r h
    simp [runLoop] at h
  | succ n ih =>
    intro ps res r h
    rw [runLoop] at h
    rw [searchLoop_unfold]
    rcases hs : searchStep ps res with ⟨ps', res'⟩ | r'
    · rw [hs] at h
      exact ih h
    · rw [hs] at h
      simpa using h

theorem runLoop_mono : ∀ {n m : Nat} {ps : List (List α × Nat)} {res : List α}
    {r : Option (List α)}, runLoop n ps res = some r → n ≤ m →
    runLoop m ps res = some r := by
  intro n
  induction n with
  | zero =>
    intro m ps res r h
    simp [runLoop] at h
  | succ n ih =>
    intro m ps res r h hle
    rcases m with - | m
    · omega
    · rw [runLoop] at h ⊢
      rcases hs : searchStep ps res with ⟨ps', res'⟩ | r'
      · rw [hs] at h
        exact ih h (Nat.le_of_succ_le_succ hle)
      · rw [hs] at h
        exact h

/-- The loop terminates: `cursorMeasure ps + 1` iterations always reach the
exit (every iteration advances at least one cursor). -/
theorem runLoop_complete : ∀ (n : Nat) (ps : List (List α × Nat)) (res : List α),
    cursorMeasure ps ≤ n → runLoop (n + 1) ps res = some (searchLoop ps res) := by
  intro n
  induction n using Nat.strong_induction_on with
  | _ n ih =>
    intro ps res hm
    rw [runLoop, searchLoop_unfold]
    rcases hs : searchStep ps res with ⟨ps', res'⟩ | r'
    · simp only
      have hd := searchStep_decreases hs
      rcases n with - | n
      · exact absurd hd (by omega)
      · exact ih n (by omega) ps' res' (by omega)
    · rfl

theorem bumpAt_length (ps : List (List α × Nat)) (pos : Nat) :
    (bumpAt ps pos).length = ps.length := by
  induction ps generalizing pos with
  | nil => rfl
  | cons p ps ih =>
    rcases pos with - | pos
    · rfl
    · simp [bumpAt, ih]

/-- With a non-empty list of query words the loop never raises: the
`IndexError` branch needs an empty `current_ids`, which needs `ps = []`. -/
theorem searchLoop_isSome {ps : List (List α × Nat)} (res : List α) (hne : ps ≠ []) :
    ∃ r, searchLoop ps res = some r := by
  suffices H : ∀ (n : Nat) (ps : List (List α × Nat)) (res : List α),
      cursorMeasure ps = n → ps ≠ [] → ∃ r, searchLoop ps res = some r by
    exact H _ ps res rfl hne
  intro n
  induction n using Nat.strong_induction_on with
  | _ n ih =>
    intro ps res hm hne
    rw [searchLoop_unfold]
    rcases hs : searchStep ps res with ⟨ps', res'⟩ | r'
    · have hd := searchStep_decreases hs
      refine ih (cursorMeasure ps') (by omega) ps' res' rfl ?_
      rw [searchStep] at hs
      rcases hc : currentIds ps with - | ids
      · rw [hc] at hs
        simp at hs
      · rw [hc] at hs
        rcases ids with - | ⟨i, ids⟩
        · simp at hs
        · simp only at hs
          by_cases hall : ((i :: ids).all (fun x => x = i)) = true
          · rw [if_pos hall] at hs
            cases hs
            intro he
            exact hne (by simpa using he)
          · rw [if_neg hall] at hs
            cases hs
            intro he
            have hlen0 : ps.length = 0 := by
              rw [← bumpAt_length ps (indexOfV (listMin i ids) (i :: ids)), he]
              rfl
            exact hne (List.length_eq_zero.mp hlen0)
    · rw [searchStep] at hs
      rcases hc : currentIds ps with - | ids
      · rw [hc] at hs
        cases hs
        exact ⟨res, rfl⟩
      · rw [hc] at hs
        rcases ids with - | ⟨i, ids⟩
        · have hl := currentIds_length hc
          simp at hl
          exact absurd (List.length_eq_zero.mp hl.symm) hne
        · simp only at hs
          by_cases hall : ((i :: ids).all (fun x => x = i)) = true
          · rw [if_pos hall] at hs
            cases hs
          · rw [if_neg hall] at hs
            cases hs

/-- A single-term query simply copies the (rest of the) postings list into
the result: with one cursor, `current_ids` is a one-element list, which is
always "all equal". -/
theorem drop_cons_of_get? {l : List α} {c : Nat} {v : α} (hg : l.get? c = some v) :
    l.drop c = v :: l.drop (c + 1) := by
  obtain ⟨hlt, hv⟩ := List.get?_eq_some.mp hg
  rw [List.drop_eq_getElem_cons hlt]
  rw [← hv]
  rfl

theorem searchStep_single (l : List α) (c : Nat) (res : List α) :
    searchStep [(l, c)] res =
      match l.get? c with
      | none => Sum.inr (some res)
      | some v => Sum.inl ([(l, c + 1)], res ++ [v]) := by
  rcases hg : l.get? c with - | v
  · rw [List.get?_eq_getElem?] at hg
    simp [searchStep, currentIds, hg]
  · rw [List.get?_eq_getElem?] at hg
    simp [searchStep, currentIds, hg]

theorem searchLoop_single (l : List α) (c : Nat) (res : List α) :
    searchLoop [(l, c)] res = some (res ++ l.drop c) := by
  suffices H : ∀ (n : Nat) (l : List α) (c : Nat) (res : List α),
      l.length - c = n → searchLoop [(l, c)] res = some (res ++ l.drop c) by
    exact H _ l c res rfl
  intro n
  induction n using Nat.strong_induction_on with
  | _ n ih =>
    intro l c res hm
    rw [searchLoop_unfold, searchStep_single]
    rcases hg : l.get? c with - | v
    · have hlen : l.length ≤ c := List.get?_eq_none.mp hg
      simp [List.drop_eq_nil_of_le hlen]
    · have hlt : c < l.length := (List.get?_eq_some.mp hg).1
      simp only
      rw [ih (l.length - (c + 1)) (by omega) l (c + 1) (res ++ [v]) rfl,
        drop_cons_of_get? hg]
      simp

/-! ### The intersection invariant of the merge loop -/

/-- The intersection of the unscanned suffixes of the postings lists,
enumerated in the order of the first list. -/
def interAt : List (List α × Nat) → List α
  | [] => []
  | p :: ps => (p.1.drop p.2).filter (fun x => ps.all (fun q => x ∈ q.1.drop q.2))

theorem mem_interAt {ps : List (List α × Nat)} (hne : ps ≠ []) {x : α} :
    x ∈ interAt ps ↔ ∀ q ∈ ps, x ∈ q.1.drop q.2 := by
  rcases ps with - | ⟨p, rest⟩
  · exact absurd rfl hne
  · rw [interAt, List.mem_filter]
    simp only [List.all_eq_true, decide_eq_true_eq]
    constructor
    · rintro ⟨h1, h2⟩ q hq
      rcases List.mem_cons.mp hq with rfl | hq2
      · exact h1
      · exact h2 q hq2
    · intro h
      exact ⟨h p (List.mem_cons_self _ _), fun q hq => h q (List.mem_cons_of_mem _ hq)⟩

theorem interAt_sorted {ps : List (List α × Nat)}
    (hs : ∀ p ∈ ps, p.1.Pairwise (· < ·)) : (interAt ps).Pairwise (· < ·) := by
  rcases ps with - | ⟨p, rest⟩
  · exact List.Pairwise.nil
  · exact List.Pairwise.filter _
      (List.Pairwise.sublist (List.drop_sublist _ _) (hs p (List.mem_cons_self _ _)))

theorem currentIds_forall₂ {ps : List (List α × Nat)} {l : List α}
    (h : currentIds ps = some l) :
    List.Forall₂ (fun p (v : α) => p.1.get? p.2 = some v) ps l := by
  induction ps generalizing l with
  | nil =>
    simp [currentIds] at h
    subst h
    exact List.Forall₂.nil
  | cons p ps ih =>
    rw [currentIds] at h
    rcases hg : p.1.get? p.2 with - | v
    · rw [hg] at h
      simp at h
    · rw [hg] at h
      rcases hc : currentIds ps with - | vs
      · rw [hc] at h
        simp at h
      · rw [hc] at h
        simp at h
        subst h
        exact List.Forall₂.cons hg (ih hc)

theorem currentIds_none {ps : List (List α × Nat)} (h : currentIds ps = none) :
    ∃ q ∈ ps, q.1.get? q.2 = none := by
  induction ps with
  | nil => simp [currentIds] at h
  | cons p ps ih =>
    rw [currentIds] at h
    rcases hg : p.1.get? p.2 with - | v
    · exact ⟨p, List.mem_cons_self _ _, hg⟩
    · rw [hg] at h
      rcases hc : currentIds ps with - | vs
      · obtain ⟨q, hq, hqn⟩ := ih hc
        exact ⟨q, List.mem_cons_of_mem _ hq, hqn⟩
      · rw [hc] at h
        simp at h

theorem forall₂_mem_right {β γ : Type} {R : γ → β → Prop} {ps : List γ} {l : List β}
    (h : List.Forall₂ R ps l) {v : β} (hv : v ∈ l) : ∃ p ∈ ps, R p v := by
  induction h with
  | nil => simp at hv
  | cons hr hrest ih =>
    rcases List.mem_cons.mp hv with rfl | hv2
    · exact ⟨_, List.mem_cons_self _ _, hr⟩
    · obtain ⟨p, hp, hpr⟩ := ih hv2
      exact ⟨p, List.mem_cons_of_mem _ hp, hpr⟩

theorem forall₂_all_eq {ps : List (List α × Nat)} {l : List α} {i : α}
    (h : List.Forall₂ (fun p (v : α) => p.1.get? p.2 = some v) ps l)
    (hall : ∀ v ∈ l, v = i) : ∀ p ∈ ps, p.1.get? p.2 = some i := by
  induction h with
  | nil => simp
  | cons hr hrest ih =>
    intro p hp
    rcases List.mem_cons.mp hp with rfl | hp2
    · rw [hr, hall _ (List.mem_cons_self _ _)]
    · exact ih (fun v hv => hall v (List.mem_cons_of_mem _ hv)) p hp2

theorem listMin_le (x : α) (xs : List α) : ∀ y ∈ x :: xs, listMin x xs ≤ y := by
  suffices H : ∀ (xs : List α) (x : α), ∀ y ∈ x :: xs, xs.foldl min x ≤ y by
    intro y hy
    exact H xs x y hy
  intro xs
  induction xs with
  | nil =>
    intro x y hy
    simp at hy
    subst hy
    exact le_refl _
  | cons z zs ih =>
    intro x y hy
    rw [List.foldl_cons]
    rcases List.mem_cons.mp hy with h' | hy2
    · rw [h']
      exact le_trans (ih (min x z) _ (List.mem_cons_self _ _)) (min_le_left _ _)
    · rcases List.mem_cons.mp hy2 with h'' | hy3
      · rw [h'']
        exact le_trans (ih (min x z) _ (List.mem_cons_self _ _)) (min_le_right _ _)
      · exact ih (min x z) y (List.mem_cons_of_mem _ hy3)

theorem indexOfV_get {a : α} : ∀ {l : List α}, a ∈ l →
    ∀ hlt : indexOfV a l < l.length, l.get ⟨indexOfV a l, hlt⟩ = a := by
  intro l
  induction l with
  | nil =>
    intro h
    simp at h
  | cons b bs ih =>
    intro h hlt
    by_cases hb : b = a
    · simp only [indexOfV, if_pos hb] at hlt ⊢
      exact hb
    · have ha : a ∈ bs := by
        rcases List.mem_cons.mp h with h' | h'
        · exact absurd h'.symm hb
        · exact h'
      simp only [indexOfV, if_neg hb] at hlt ⊢
      exact ih ha (Nat.lt_of_succ_lt_succ hlt)

theorem bumpAt_decomp : ∀ (ps : List (List α × Nat)) (pos : Nat)
    (h : pos < ps.length),
    bumpAt ps pos =
      ps.take pos ++ ((ps.get ⟨pos, h⟩).1, (ps.get ⟨pos, h⟩).2 + 1) :: ps.drop (pos + 1) := by
  intro ps
  induction ps with
  | nil =>
    intro pos h
    simp at h
  | cons p ps ih =>
    intro pos h
    rcases pos with - | pos
    · rfl
    · simp only [bumpAt, List.take_succ_cons, List.get_cons_succ, List.drop_succ_cons,
        List.cons_append]
      rw [ih pos (Nat.lt_of_succ_lt_succ h)]

theorem take_cons_drop (ps : List (List α × Nat)) (pos : Nat) (h : pos < ps.length) :
    ps = ps.take pos ++ ps.get ⟨pos, h⟩ :: ps.drop (pos + 1) := by
  conv_lhs => rw [← List.take_append_drop pos ps]
  congr 1
  rw [List.drop_eq_getElem_cons h]
  rfl

/-- Strictly sorted lists with the same members are equal. -/
theorem eq_of_sorted_of_mem_iff : ∀ {l₁ l₂ : List α}, l₁.Pairwise (· < ·) →
    l₂.Pairwise (· < ·) → (∀ x, x ∈ l₁ ↔ x ∈ l₂) → l₁ = l₂ := by
  intro l₁
  induction l₁ with
  | nil =>
    intro l₂ h1 h2 hm
    rcases l₂ with - | ⟨b, l₂⟩
    · rfl
    · exact absurd ((hm b).mpr (List.mem_cons_self _ _)) (List.not_mem_nil _)
  | cons a l₁ ih =>
    intro l₂ h1 h2 hm
    rcases l₂ with - | ⟨b, l₂⟩
    · exact absurd ((hm a).mp (List.mem_cons_self _ _)) (List.not_mem_nil _)
    · obtain ⟨ha1, hs1⟩ := List.pairwise_cons.mp h1
      obtain ⟨hb2, hs2⟩ := List.pairwise_cons.mp h2
      have hab : a = b := by
        rcases List.mem_cons.mp ((hm a).mp (List.mem_cons_self _ _)) with h' | h'
        · exact h'
        · rcases List.mem_cons.mp ((hm b).mpr (List.mem_cons_self _ _)) with h'' | h''
          · exact h''.symm
          · exact absurd (lt_trans (hb2 a h') (ha1 b h'')) (lt_irrefl b)
      subst hab
      have htl : ∀ x, x ∈ l₁ ↔ x ∈ l₂ := by
        intro x
        constructor
        · intro hx
          rcases List.mem_cons.mp ((hm x).mp (List.mem_cons_of_mem _ hx)) with h' | h'
          · exact absurd (h' ▸ ha1 x hx) (lt_irrefl a)
          · exact h'
        · intro hx
          rcases List.mem_cons.mp ((hm x).mpr (List.mem_cons_of_mem _ hx)) with h' | h'
          · exact absurd (h' ▸ hb2 x hx) (lt_irrefl a)
          · exact h'
      rw [ih hs1 hs2 htl]

theorem all_congr_mem {γ : Type} {l : List γ} {p q : γ → Bool}
    (h : ∀ x ∈ l, p x = q x) : l.all p = l.all q := by
  induction l with
  | nil => rfl
  | cons a as ih =>
    rw [List.all_cons, List.all_cons, h a (List.mem_cons_self _ _),
      ih (fun x hx => h x (List.mem_cons_of_mem _ hx))]

/-- When all cursors read the same identifier `i` (the match branch), `i`
heads the suffix intersection and the rest is the suffix intersection after
advancing every cursor. -/
theorem interAt_all_eq {ps : List (List α × Nat)} {i : α}
    (h : ∀ p ∈ ps, p.1.get? p.2 = some i)
    (hs : ∀ p ∈ ps, p.1.Pairwise (· < ·)) (hne : ps ≠ []) :
    interAt ps = i :: interAt (ps.map (fun p => (p.1, p.2 + 1))) := by
  rcases ps with - | ⟨p, rest⟩
  · exact absurd rfl hne
  have hdp : p.1.drop p.2 = i :: p.1.drop (p.2 + 1) :=
    drop_cons_of_get? (h p (List.mem_cons_self _ _))
  have hisort : (p.1.drop p.2).Pairwise (· < ·) :=
    List.Pairwise.sublist (List.drop_sublist _ _) (hs p (List.mem_cons_self _ _))
  rw [hdp] at hisort
  have hgt : ∀ x ∈ p.1.drop (p.2 + 1), i < x := (List.pairwise_cons.mp hisort).1
  have hmap : interAt ((p :: rest).map (fun p => (p.1, p.2 + 1))) =
      (p.1.drop (p.2 + 1)).filter
        (fun x => rest.all (fun q => x ∈ q.1.drop (q.2 + 1))) := by
    rw [List.map_cons, interAt]
    congr 1
    funext x
    rw [List.all_map]
    rfl
  have hhead : (rest.all (fun q => i ∈ q.1.drop q.2)) = true := by
    rw [List.all_eq_true]
    intro q hq
    rw [drop_cons_of_get? (h q (List.mem_cons_of_mem _ hq))]
    simp
  rw [interAt, hdp, List.filter_cons, hhead, if_pos rfl, hmap]
  congr 1
  apply List.filter_congr
  intro x hx
  apply all_congr_mem
  intro q hq
  rw [drop_cons_of_get? (h q (List.mem_cons_of_mem _ hq))]
  apply decide_eq_decide.mpr
  have hxi : x ≠ i := fun he => absurd (he ▸ hgt x hx) (lt_irrefl i)
  simp [hxi]

/-- In the catch-up branch, advancing the cursor of the first minimal
identifier does not change the suffix intersection: the minimum cannot be a
member of every suffix (some current identifier exceeds it). -/
theorem interAt_bump {ps : List (List α × Nat)} {i : α} {ids : List α}
    (hf : List.Forall₂ (fun p (v : α) => p.1.get? p.2 = some v) ps (i :: ids))
    (hs : ∀ p ∈ ps, p.1.Pairwise (· < ·))
    (hnall : ¬((i :: ids).all (fun x => x = i)) = true) :
    interAt (bumpAt ps (indexOfV (listMin i ids) (i :: ids))) = interAt ps := by
  set m := listMin i ids with hm
  set pos := indexOfV m (i :: ids) with hposdef
  have hmm : m ∈ i :: ids := listMin_mem i ids
  have hlen : ps.length = (i :: ids).length := (List.Forall₂.length_eq hf)
  have hpos_ids : pos < (i :: ids).length := indexOfV_lt_length hmm
  have hpos : pos < ps.length := by omega
  have hval : (i :: ids).get ⟨pos, hpos_ids⟩ = m := indexOfV_get hmm hpos_ids
  have hget : (ps.get ⟨pos, hpos⟩).1.get? (ps.get ⟨pos, hpos⟩).2 = some m := by
    have := List.Forall₂.get hf hpos hpos_ids
    rwa [hval] at this
  -- some current identifier strictly exceeds the minimum
  have hv : ∃ v ∈ i :: ids, m < v := by
    have hx : ∃ x ∈ ids, x ≠ i := by
      simp only [List.all_cons, List.all_eq_true, decide_eq_true_eq, Bool.and_eq_true,
        not_and, not_forall] at hnall
      obtain ⟨x, hx, hxe⟩ := hnall (by simp)
      exact ⟨x, hx, hxe⟩
    by_cases hmi : m = i
    · obtain ⟨x, hx, hxe⟩ := hx
      refine ⟨x, List.mem_cons_of_mem _ hx, ?_⟩
      have hle : m ≤ x := listMin_le i ids x (List.mem_cons_of_mem _ hx)
      have hne2 : m ≠ x := by
        rw [hmi]
        exact Ne.symm hxe
      exact lt_of_le_of_ne hle hne2
    · refine ⟨i, List.mem_cons_self _ _, ?_⟩
      have hle : m ≤ i := listMin_le i ids i (List.mem_cons_self _ _)
      exact lt_of_le_of_ne hle hmi
  obtain ⟨v, hvmem, hvlt⟩ := hv
  obtain ⟨qv, hqv, hqvr⟩ := forall₂_mem_right hf hvmem
  -- x in every old suffix forces m < x
  have hgtm : ∀ x : α, (∀ q ∈ ps, x ∈ q.1.drop q.2) → m < x := by
    intro x hx
    have hxv := hx qv hqv
    rw [drop_cons_of_get? hqvr] at hxv
    have hsv : (qv.1.drop qv.2).Pairwise (· < ·) :=
      List.Pairwise.sublist (List.drop_sublist _ _) (hs qv hqv)
    rw [drop_cons_of_get? hqvr] at hsv
    rcases List.mem_cons.mp hxv with h' | h'
    · exact h' ▸ hvlt
    · exact lt_trans hvlt ((List.pairwise_cons.mp hsv).1 x h')
  set P := ps.get ⟨pos, hpos⟩ with hP
  have hdecomp := take_cons_drop ps pos hpos
  have hbump := bumpAt_decomp ps pos hpos
  rw [← hP] at hdecomp hbump
  have hdropP : P.1.drop P.2 = m :: P.1.drop (P.2 + 1) := drop_cons_of_get? hget
  have hPmem : P ∈ ps := List.get_mem _ _ _
  have hmem_iff : ∀ x : α,
      (∀ q ∈ bumpAt ps pos, x ∈ q.1.drop q.2) ↔ (∀ q ∈ ps, x ∈ q.1.drop q.2) := by
    intro x
    constructor
    · intro hb q hq
      rw [hdecomp] at hq
      rcases List.mem_append.mp hq with hq1 | hq2
      · exact hb q (by rw [hbump]; exact List.mem_append_left _ hq1)
      · rcases List.mem_cons.mp hq2 with h' | h'
        · have hxn : x ∈ P.1.drop (P.2 + 1) :=
            hb (P.1, P.2 + 1)
              (by rw [hbump]; exact List.mem_append_right _ (List.mem_cons_self _ _))
          rw [h', hdropP]
          exact List.mem_cons_of_mem _ hxn
        · exact hb q
            (by rw [hbump]; exact List.mem_append_right _ (List.mem_cons_of_mem _ h'))
    · intro ho q hq
      have hmx : m < x := hgtm x ho
      rw [hbump] at hq
      rcases List.mem_append.mp hq with hq1 | hq2
      · exact ho q (List.take_subset _ _ hq1)
      · rcases List.mem_cons.mp hq2 with h' | h'
        · have hxo := ho P hPmem
          rw [hdropP] at hxo
          rcases List.mem_cons.mp hxo with h'' | h''
          · exact absurd (h'' ▸ hmx) (lt_irrefl _)
          · rw [h']
            exact h''
        · exact ho q (List.drop_subset _ _ h')
  have hs' : ∀ q ∈ bumpAt ps pos, q.1.Pairwise (· < ·) := by
    intro q hq
    rw [hbump] at hq
    rcases List.mem_append.mp hq with hq1 | hq2
    · exact hs q (List.take_subset _ _ hq1)
    · rcases List.mem_cons.mp hq2 with h' | h'
      · rw [h']
        exact hs P hPmem
      · exact hs q (List.drop_subset _ _ h')
  have hnemp : ps ≠ [] := by
    intro he
    rw [he] at hpos
    simp at hpos
  have hbne : bumpAt ps pos ≠ [] := by
    intro he
    have hl := bumpAt_length ps pos
    rw [he] at hl
    exact hnemp (List.length_eq_zero.mp hl.symm)
  apply eq_of_sorted_of_mem_iff (interAt_sorted hs') (interAt_sorted hs)
  intro x
  rw [mem_interAt hbne, mem_interAt hnemp]
  exact hmem_iff x

/-- Main loop invariant: on strictly sorted postings lists the loop returns
the accumulated result followed by the intersection of the unscanned
suffixes. -/
theorem searchLoop_inter {ps : List (List α × Nat)} {res : List α}
    (hs : ∀ p ∈ ps, p.1.Pairwise (· < ·)) (hne : ps ≠ []) :
    searchLoop ps res = some (res ++ interAt ps) := by
  suffices H : ∀ (n : Nat) (ps : List (List α × Nat)) (res : List α),
      cursorMeasure ps = n → (∀ p ∈ ps, p.1.Pairwise (· < ·)) → ps ≠ [] →
      searchLoop ps res = some (res ++ interAt ps) by
    exact H _ ps res rfl hs hne
  intro n
  induction n using Nat.strong_induction_on with
  | _ n ih =>
    intro ps res hm hs hne
    rw [searchLoop_unfold, searchStep]
    rcases hc : currentIds ps with - | ids
    · simp only
      obtain ⟨q, hq, hqn⟩ := currentIds_none hc
      have hdq : q.1.drop q.2 = [] := List.drop_eq_nil_of_le (List.get?_eq_none.mp hqn)
      have hint : interAt ps = [] := by
        rw [List.eq_nil_iff_forall_not_mem]
        intro x hx
        have hx2 := (mem_interAt hne).mp hx q hq
        rw [hdq] at hx2
        simp at hx2
      rw [hint]
      simp
    · rcases ids with - | ⟨i, ids⟩
      · have hl := currentIds_length hc
        simp at hl
        exact absurd (List.length_eq_zero.mp hl.symm) hne
      · simp only
        have hf := currentIds_forall₂ hc
        have hb := currentIds_bound hc
        by_cases hall : ((i :: ids).all (fun x => x = i)) = true
        · rw [if_pos hall]
          simp only
          have hieq : ∀ p ∈ ps, p.1.get? p.2 = some i := by
            apply forall₂_all_eq hf
            intro v hv
            rw [List.all_eq_true] at hall
            simpa using hall v hv
          have hm' : cursorMeasure (ps.map (fun p => (p.1, p.2 + 1))) < n :=
            hm ▸ advanceAll_measure hb hne
          have hs' : ∀ p ∈ ps.map (fun p => (p.1, p.2 + 1)), p.1.Pairwise (· < ·) := by
            intro p hp
            obtain ⟨p0, hp0, rfl⟩ := List.mem_map.mp hp
            exact hs p0 hp0
          have hne' : ps.map (fun p => (p.1, p.2 + 1)) ≠ [] := by
            intro he
            exact hne (by simpa using he)
          rw [ih _ hm' _ (res ++ [i]) rfl hs' hne', interAt_all_eq hieq hs hne]
          simp
        · rw [if_neg hall]
          simp only
          have hlen := currentIds_length hc
          have hpos : indexOfV (listMin i ids) (i :: ids) < ps.length := by
            rw [← hlen]
            exact indexOfV_lt_length (listMin_mem i ids)
          have hm' : cursorMeasure (bumpAt ps (indexOfV (listMin i ids) (i :: ids))) < n :=
            hm ▸ bumpAt_measure hb hpos
          have hs' : ∀ q ∈ bumpAt ps (indexOfV (listMin i ids) (i :: ids)),
              q.1.Pairwise (· < ·) := by
            intro q hq
            rw [bumpAt_decomp ps _ hpos] at hq
            rcases List.mem_append.mp hq with hq1 | hq2
            · exact hs q (List.take_subset _ _ hq1)
            · rcases List.mem_cons.mp hq2 with h' | h'
              · rw [h']
                exact hs (ps.get ⟨indexOfV (listMin i ids) (i :: ids), hpos⟩)
                  (List.get_mem ps _ hpos)
              · exact hs q (List.drop_subset _ _ h')
          have hne' : bumpAt ps (indexOfV (listMin i ids) (i :: ids)) ≠ [] := by
            intro he
            have hl := bumpAt_length ps (indexOfV (listMin i ids) (i :: ids))
            rw [he] at hl
            exact hne (List.length_eq_zero.mp hl.symm)
          rw [ih _ hm' _ res rfl hs' hne', interAt_bump hf hs hall]

/-! ## Search-level characterizations -/

theorem postings_sorted {docs : List (α × List Char)}
    (hinc : (docs.map Prod.fst).Pairwise (· < ·)) (w : Term) :
    (postings docs w).Pairwise (· < ·) := by
  rw [postings]
  exact List.Pairwise.sublist (List.Sublist.map _ (List.filter_sublist _)) hinc

theorem postings_nodup {docs : List (α × List Char)}
    (hnd : (docs.map Prod.fst).Nodup) (w : Term) : (postings docs w).Nodup := by
  rw [postings]
  exact List.Nodup.sublist (List.Sublist.map _ (List.filter_sublist _)) hnd

theorem mem_postings {docs : List (α × List Char)} {w : Term} {x : α} :
    x ∈ postings docs w ↔ ∃ d ∈ docs, d.1 = x ∧ w ∈ parse_text_to_word d.2 := by
  rw [postings]
  simp only [List.mem_map, List.mem_filter, decide_eq_true_eq]
  constructor
  · rintro ⟨d, ⟨hd, hw⟩, rfl⟩
    exact ⟨d, hd, rfl, hw⟩
  · rintro ⟨d, hd, rfl, hw⟩
    exact ⟨d, ⟨hd, hw⟩, rfl⟩

/-- If every query word is present, `search` runs the merge loop on the
postings lists with all cursors at `0` and returns the suffix
intersection. -/
theorem search_all_present {idx : Index α} {query : List Char}
    (hne : parse_text_to_word query ≠ [])
    (hpres : ∀ w ∈ parse_text_to_word query, (lookupIdx idx w).isSome = true)
    (hsort : ∀ w ∈ parse_text_to_word query, ∀ l, lookupIdx idx w = some l →
      l.Pairwise (· < ·)) :
    search idx query =
      some (interAt ((parse_text_to_word query).map
        (fun w => ((lookupIdx idx w).getD [], 0)))) := by
  rw [search]
  have hany : ((parse_text_to_word query).any
      (fun w => (lookupIdx idx w).isNone)) = false := by
    rw [List.any_eq_false]
    intro w hw
    have := hpres w hw
    simp [Option.isNone, Option.isSome] at this ⊢
    rcases h : lookupIdx idx w with - | l
    · rw [h] at this
      simp at this
    · simp
  rw [if_neg (by simp [hany])]
  have hmapne : (parse_text_to_word query).map
      (fun w => ((lookupIdx idx w).getD [], 0)) ≠ [] := by
    intro he
    exact hne (by simpa using he)
  refine (searchLoop_inter ?_ hmapne).trans (by simp)
  intro p hp
  obtain ⟨w, hw, rfl⟩ := List.mem_map.mp hp
  rcases h : lookupIdx idx w with - | l
  · have := hpres w hw
    rw [h] at this
    simp at this
  · simpa [h] using hsort w hw l h

/-- Membership in the all-cursors-at-zero suffix intersection is membership
in every postings list. -/
theorem mem_interAt_zero {ls : List Term} {f : Term → List α} (hne : ls ≠ []) {x : α} :
    x ∈ interAt (ls.map (fun w => (f w, 0))) ↔ ∀ w ∈ ls, x ∈ f w := by
  have hmapne : ls.map (fun w => (f w, 0)) ≠ [] := by
    intro he
    exact hne (by simpa using he)
  rw [mem_interAt hmapne]
  constructor
  · intro h w hw
    have := h (f w, 0) (List.mem_map.mpr ⟨w, hw, rfl⟩)
    simpa using this
  · intro h q hq
    obtain ⟨w, hw, rfl⟩ := List.mem_map.mp hq
    simpa using h w hw

/-- If some query word is absent from the store, `search` returns `[]`
immediately. -/
theorem search_absent {idx : Index α} {query : List Char}
    (h : ∃ w ∈ parse_text_to_word query, lookupIdx idx w = none) :
    search idx query = some [] := by
  rw [search]
  obtain ⟨w, hw, hnone⟩ := h
  rw [if_pos]
  rw [List.any_eq_true]
  exact ⟨w, hw, by simp [hnone]⟩

/-- An empty tokenized query reaches the `current_ids[0]` crash: the model
returns `none` (the `IndexError`). -/
theorem search_empty_query {idx : Index α} {query : List Char}
    (h : parse_text_to_word query = []) : search idx query = none := by
  rw [search]
  simp only [h]
  rw [if_neg (by simp)]
  rw [searchLoop_unfold]
  rfl

/-! ## `LRUCache` (`src/search.py:136-147`) and the cached engine
(`BOWInvertedIndexEngineWithCache`, `src/search.py:150-163`)

`pylru.lrucache(size)` is modelled as a most-recently-used-first
association list truncated to its capacity. The value type is a parameter
so that the same cache serves both the plain model (values are result
lists) and the reference-semantics model of C9 (values are heap
addresses). -/

structure LRUCache (β : Type) where
  size : Nat
  entries : List (List Char × β)

/-- `key in self.cache`. -/
def LRUCache.has {β : Type} (c : LRUCache β) (key : List Char) : Bool :=
  c.entries.any (fun e => e.1 = key)

/-- `self.cache[key]` (read): the stored value of the key. -/
def LRUCache.get {β : Type} (c : LRUCache β) (key : List Char) : Option β :=
  (c.entries.find? (fun e => e.1 = key)).map Prod.snd

/-- Reading a present key marks it most recently used. -/
def LRUCache.touch {β : Type} (c : LRUCache β) (key : List Char) : LRUCache β :=
  match c.entries.find? (fun e => e.1 = key) with
  | none => c
  | some e => ⟨c.size, e :: c.entries.filter (fun x => x.1 ≠ key)⟩

/-- `self.cache[key] = value`: insert as most recently used and evict the
least recently used entry beyond capacity. -/
def LRUCache.set {β : Type} (c : LRUCache β) (key : List Char) (v : β) : LRUCache β :=
  ⟨c.size, ((key, v) :: c.entries.filter (fun x => x.1 ≠ key)).take c.size⟩

/-- `BOWInvertedIndexEngineWithCache.search` (`src/search.py:155-163`): a
hit returns the cached result without touching the postings store; a miss
computes via `BOWInvertedIndexEngine.search`, stores, and returns. An
engine exception (`none`) propagates and caches nothing. -/
def searchWC (idx : Index α) (c : LRUCache (List α)) (query : List Char) :
    Option (List α) × LRUCache (List α) :=
  if c.has query then (c.get query, c.touch query)
  else
    match search idx query with
    | none => (none, c)
    | some r => (some r, c.set query r)

/-- The cached engine's constructor: `LRUCache.__init__(self)`, capacity 2,
empty cache. -/
def initCache : LRUCache (List α) := ⟨2, []⟩

/-- A sequence of `search` calls on the cached engine over a fixed index. -/
def runQueries (idx : Index α) :
    LRUCache (List α) → List (List Char) → List (Option (List α)) × LRUCache (List α)
  | c, [] => ([], c)
  | c, q :: qs =>
    let r := searchWC idx c q
    let rest := runQueries idx r.2 qs
    (r.1 :: rest.1, rest.2)

/-- Cache coherence: every cached entry is the engine's answer. -/
def cacheOK (idx : Index α) (c : LRUCache (List α)) : Prop :=
  ∀ e ∈ c.entries, search idx e.1 = some e.2

theorem has_iff_mem_keys {β : Type} {c : LRUCache β} {q : List Char} :
    c.has q = true ↔ q ∈ c.entries.map Prod.fst := by
  rw [LRUCache.has, List.any_eq_true]
  simp only [List.mem_map, decide_eq_true_eq]

theorem searchWC_fst {idx : Index α} {c : LRUCache (List α)} {q : List Char}
    (hok : cacheOK idx c) : (searchWC idx c q).1 = search idx q := by
  rw [searchWC]
  by_cases hh : c.has q = true
  · rw [if_pos hh]
    rw [LRUCache.has, List.any_eq_true] at hh
    obtain ⟨e, he, hpe⟩ := hh
    have hfind : (c.entries.find? (fun e => e.1 = q)).isSome :=
      List.find?_isSome.mpr ⟨e, he, hpe⟩
    rcases hf : c.entries.find? (fun e => e.1 = q) with - | e0
    · rw [hf] at hfind
      simp at hfind
    · have he0 : e0 ∈ c.entries := List.mem_of_find?_eq_some hf
      have hkey : e0.1 = q := by
        have := List.find?_some hf
        simpa using this
      show c.get q = search idx q
      rw [LRUCache.get, hf, ← hkey, hok e0 he0]
      rfl
  · rw [if_neg hh]
    split
    · rename_i heq
      exact heq.symm
    · rename_i r heq
      exact heq.symm

theorem searchWC_ok {idx : Index α} {c : LRUCache (List α)} {q : List Char}
    (hok : cacheOK idx c) : cacheOK idx (searchWC idx c q).2 := by
  rw [searchWC]
  by_cases hh : c.has q = true
  · rw [if_pos hh]
    intro e he
    rw [LRUCache.touch] at he
    rcases hf : c.entries.find? (fun e => e.1 = q) with - | e0
    · rw [hf] at he
      exact hok e he
    · rw [hf] at he
      simp only at he
      rcases List.mem_cons.mp he with h' | h'
      · exact h' ▸ hok e0 (List.mem_of_find?_eq_some hf)
      · exact hok e (List.mem_of_mem_filter h')
  · rw [if_neg hh]
    rcases hr : search idx q with - | r
    · exact hok
    · intro e he
      simp only [LRUCache.set] at he
      have he2 := List.take_subset _ _ he
      rcases List.mem_cons.mp he2 with h' | h'
      · rw [h']
        exact hr
      · exact hok e (List.mem_of_mem_filter h')

/-- Cache transparency over a query sequence: every returned outcome is
the uncached engine's outcome, and coherence is maintained. -/
theorem runQueries_correct (idx : Index α) (qs : List (List Char)) :
    ∀ c, cacheOK idx c →
      (runQueries idx c qs).1 = qs.map (search idx) ∧
        cacheOK idx (runQueries idx c qs).2 := by
  induction qs with
  | nil =>
    intro c hok
    exact ⟨rfl, hok⟩
  | cons q qs ih =>
    intro c hok
    rw [runQueries]
    obtain ⟨h1, h2⟩ := ih (searchWC idx c q).2 (searchWC_ok hok)
    refine ⟨?_, h2⟩
    simp only [h1, searchWC_fst hok, List.map_cons]

theorem length_filter_lt {γ : Type} (p : γ → Bool) :
    ∀ {l : List γ} {a : γ}, a ∈ l → p a = false → (l.filter p).length < l.length := by
  intro l
  induction l with
  | nil =>
    intro a h
    simp at h
  | cons b bs ih =>
    intro a ha hp
    rcases List.mem_cons.mp ha with h' | h'
    · have hpb : p b = false := h' ▸ hp
      rw [List.filter_cons, hpb]
      simp only [Bool.false_eq_true, if_false, List.length_cons]
      have := List.length_filter_le p bs
      omega
    · rw [List.filter_cons]
      have hlt := ih h' hp
      by_cases hb : p b = true
      · rw [if_pos hb]
        simp only [List.length_cons]
        omega
      · rw [if_neg hb]
        simp only [List.length_cons]
        omega

theorem searchWC_size (idx : Index α) (c : LRUCache (List α)) (q : List Char) :
    (searchWC idx c q).2.size = c.size := by
  rw [searchWC]
  split
  · show (c.touch q).size = c.size
    rw [LRUCache.touch]
    split <;> rfl
  · split <;> rfl

theorem searchWC_length (idx : Index α) (c : LRUCache (List α)) (q : List Char)
    (h : c.entries.length ≤ c.size) :
    (searchWC idx c q).2.entries.length ≤ c.size := by
  rw [searchWC]
  split
  · show (c.touch q).entries.length ≤ c.size
    rw [LRUCache.touch]
    split
    · exact h
    · rename_i e0 hf
      simp only [List.length_cons]
      have hkey : (fun x : List Char × List α => decide (x.1 ≠ q)) e0 = false := by
        have := List.find?_some hf
        simp at this ⊢
        exact this
      have := length_filter_lt (fun x : List Char × List α => decide (x.1 ≠ q))
        (List.mem_of_find?_eq_some hf) hkey
      omega
  · split
    · exact h
    · show (LRUCache.set c q _).entries.length ≤ c.size
      simp only [LRUCache.set]
      exact List.length_take_le _ _

/-- The capacity bound holds at all times: any query sequence from any
within-capacity cache stays within capacity. -/
theorem runQueries_length (idx : Index α) (qs : List (List Char)) :
    ∀ c : LRUCache (List α), c.entries.length ≤ c.size →
      (runQueries idx c qs).2.entries.length ≤ c.size := by
  induction qs with
  | nil =>
    intro c h
    exact h
  | cons q qs ih =>
    intro c h
    rw [runQueries]
    have h1 := searchWC_length idx c q h
    rw [← searchWC_size idx c q] at h1
    have h2 := ih (searchWC idx c q).2 h1
    rw [searchWC_size idx c q] at h2
    exact h2

theorem take_append_take {γ : Type} (l m : List γ) (n : Nat) :
    (l ++ m.take n).take n = (l ++ m).take n := by
  rw [List.take_append_eq_append_take, List.take_append_eq_append_take,
    List.take_take]
  congr 1
  congr 1
  omega

/-- A query whose token set is non-empty always returns normally (either
the missing-term short-circuit or the terminating merge loop). -/
theorem search_isSome {idx : Index α} {q : List Char}
    (h : parse_text_to_word q ≠ []) : ∃ r, search idx q = some r := by
  by_cases habs : ∃ w ∈ parse_text_to_word q, lookupIdx idx w = none
  · exact ⟨[], search_absent habs⟩
  · rw [search]
    rw [if_neg]
    · refine searchLoop_isSome [] ?_
      intro he
      exact h (by simpa using he)
    · simp only [List.any_eq_true, not_exists, not_and]
      push_neg at habs
      intro w hw
      have := habs w hw
      simp [Option.isNone]
      rcases hl : lookupIdx idx w with - | l
      · exact absurd hl this
      · simp
  -- the two branches above return the loop outcome and ⟨[], _⟩ respectively

theorem searchWC_miss_keys {idx : Index α} {c : LRUCache (List α)} {q : List Char}
    (hmiss : c.has q = false) {r : List α} (hr : search idx q = some r) :
    (searchWC idx c q).2.entries.map Prod.fst =
      (q :: c.entries.map Prod.fst).take c.size := by
  rw [searchWC, if_neg (by simp [hmiss]), hr]
  simp only [LRUCache.set]
  have hfilter : c.entries.filter (fun x => x.1 ≠ q) = c.entries := by
    rw [List.filter_eq_self]
    intro e he
    have hne : ¬ e.1 = q := by
      intro hk
      have hh : c.has q = true := has_iff_mem_keys.mpr (List.mem_map.mpr ⟨e, he, hk⟩)
      simp [hmiss] at hh
    simpa using hne
  rw [hfilter, List.map_take]
  rfl

/-- Processing pairwise-distinct, never-seen, normally-returning queries:
the cache keys afterwards are the last `size` queries, most recent
first. -/
theorem runQueries_fresh_keys (idx : Index α) :
    ∀ (qs : List (List Char)) (c : LRUCache (List α)), qs.Nodup →
      (∀ q ∈ qs, c.has q = false) →
      (∀ q ∈ qs, ∃ r, search idx q = some r) →
      c.entries.length ≤ c.size →
      (runQueries idx c qs).2.entries.map Prod.fst =
        (qs.reverse ++ c.entries.map Prod.fst).take c.size := by
  intro qs
  induction qs with
  | nil =>
    intro c hnd hfresh hsucc hlen
    simp only [runQueries, List.reverse_nil, List.nil_append]
    rw [List.take_of_length_le (by simpa using hlen)]
  | cons q qs ih =>
    intro c hnd hfresh hsucc hlen
    obtain ⟨r, hr⟩ := hsucc q (List.mem_cons_self _ _)
    have hmiss : c.has q = false := hfresh q (List.mem_cons_self _ _)
    have hkeys := searchWC_miss_keys hmiss hr
    rw [runQueries]
    have hsz := searchWC_size idx c q
    have hstep := ih (searchWC idx c q).2 (List.Nodup.of_cons hnd)
      (fun q' hq' => ?fresh) (fun q' hq' => hsucc q' (List.mem_cons_of_mem _ hq'))
      (by rw [hsz]; rw [← hsz] at hkeys; exact searchWC_length idx c q hlen)
    case fresh =>
      rw [Bool.eq_false_iff]
      intro hq
      have hqmem := has_iff_mem_keys.mp hq
      rw [hkeys] at hqmem
      have hqmem2 := List.take_subset _ _ hqmem
      rcases List.mem_cons.mp hqmem2 with h' | h'
      · exact (List.nodup_cons.mp hnd).1 (h' ▸ hq')
      · have : c.has q' = true := has_iff_mem_keys.mpr h'
        rw [hfresh q' (List.mem_cons_of_mem _ hq')] at this
        exact absurd this (by simp)
    show (runQueries idx (searchWC idx c q).2 qs).2.entries.map Prod.fst = _
    rw [hstep, hsz, hkeys]
    rw [take_append_take, List.reverse_cons, List.append_assoc]
    rfl

/-! ## Reference semantics of cached results (claim C9)

Python lists are mutable heap objects. `result` in
`BOWInvertedIndexEngine.search` is a fresh list object;
`self.set(query, result)` stores a reference to that object, and both the
miss return (`return result`) and the hit return (`return
self.get(query)`) hand out the same object — `pylru` makes no copy. The
heap makes this aliasing expressible: addresses index an arena of list
objects, the cache stores addresses, and mutation writes through an
address. -/

structure Heap (α : Type) where
  cells : List (List α)

/-- Allocate a fresh list object (the `result = []` of a miss, after the
engine fills it); returns the new heap and the object's address. -/
def Heap.alloc (h : Heap α) (v : List α) : Heap α × Nat :=
  (⟨h.cells ++ [v]⟩, h.cells.length)

/-- Dereference an address. -/
def Heap.read (h : Heap α) (a : Nat) : List α := (h.cells.get? a).getD []

/-- In-place mutation of the object at `a` (e.g. `r[0] = x` or `r.append`
/ `r.clear` on a result list the caller received). -/
def Heap.write (h : Heap α) (a : Nat) (v : List α) : Heap α :=
  ⟨h.cells.set a v⟩

/-- `BOWInvertedIndexEngineWithCache.search` under reference semantics:
the returned value is an address; hits return the stored address, misses
allocate, store the address, and return it. -/
def searchWCRef (idx : Index α) (h : Heap α) (c : LRUCache Nat) (query : List Char) :
    Heap α × LRUCache Nat × Option Nat :=
  if c.has query then (h, c.touch query, c.get query)
  else
    match search idx query with
    | none => (h, c, none)
    | some r =>
      let p := h.alloc r
      (p.1, c.set query p.2, some p.2)

theorem heap_read_alloc (h : Heap α) (v : List α) :
    (h.alloc v).1.read (h.alloc v).2 = v := by
  rw [Heap.alloc, Heap.read]
  simp [List.get?_concat_length]

theorem heap_read_write (h : Heap α) {a : Nat} (ha : a < h.cells.length)
    (v : List α) : (h.write a v).read a = v := by
  rw [Heap.write, Heap.read]
  simp only
  rw [List.get?_eq_getElem?, List.getElem?_set_self (by simpa using ha)]
  rfl

/-- After a miss on `q` (with capacity at least one), the next lookup of
`q` is a hit that returns the very address the miss returned: the cached
entry and the caller's result are one object, so any write through that
address is visible to the next hit. -/
theorem searchWCRef_alias {idx : Index α} {h : Heap α} {c : LRUCache Nat}
    {q : List Char} {r : List α}
    (hmiss : c.has q = false) (hr : search idx q = some r) (hsz : 1 ≤ c.size) :
    ∃ h1 c1 a, searchWCRef idx h c q = (h1, c1, some a) ∧
      h1.read a = r ∧
      ∀ v : List α,
        (searchWCRef idx (h1.write a v) c1 q).2.2 = some a ∧
        ((searchWCRef idx (h1.write a v) c1 q).1).read a = v := by
  rw [searchWCRef, if_neg (by simp [hmiss]), hr]
  refine ⟨_, _, _, rfl, heap_read_alloc h r, ?_⟩
  intro v
  have hc1 : (c.set q (h.alloc r).2).entries =
      (q, (h.alloc r).2) :: (c.entries.filter (fun x => x.1 ≠ q)).take (c.size - 1) := by
    rw [LRUCache.set]
    rcases hn : c.size with - | n
    · omega
    · simp [List.take_succ_cons]
  have hhas : (c.set q (h.alloc r).2).has q = true := by
    rw [LRUCache.has, hc1]
    simp
  have hfind : (c.set q (h.alloc r).2).entries.find? (fun e => e.1 = q) =
      some (q, (h.alloc r).2) := by
    rw [hc1]
    simp [List.find?_cons]
  rw [searchWCRef, if_pos hhas]
  refine ⟨?_, ?_⟩
  · show (c.set q (h.alloc r).2).get q = some (h.alloc r).2
    rw [LRUCache.get, hfind]
    rfl
  · show ((h.alloc r).1.write (h.alloc r).2 v).read (h.alloc r).2 = v
    apply heap_read_write
    rw [Heap.alloc]
    simp

/-! ## The tokenizer as the spec describes it (claim C8) -/

/-- Split at whitespace characters (the spec's "split on whitespace"),
keeping empty pieces. -/
def splitOnWS : List Char → List (List Char)
  | [] => [[]]
  | c :: cs =>
    if c.isWhitespace then [] :: splitOnWS cs
    else
      match splitOnWS cs with
      | [] => [[c]]
      | w :: ws => (c :: w) :: ws

/-- The tokenizer exactly as the claim describes it: replace every
character that is not alphanumeric or whitespace with a single space,
case-fold, split on whitespace, drop empty tokens, return the set. -/
def tokenizeSpec (text : List Char) : List Term :=
  ((splitOnWS ((text.map (fun c => if c.isAlphanum || c.isWhitespace then c else ' ')).map
    Char.toLower)).filter (fun w => w ≠ [])).dedup

/-- The amended description: like `tokenizeSpec`, but underscores count as
word characters (Python's `\w` keeps them in tokens). -/
def tokenizeAmended (text : List Char) : List Term :=
  ((splitOnWS ((text.map (fun c => if c.isAlphanum || c == '_' || c.isWhitespace then c
    else ' ')).map Char.toLower)).filter (fun w => w ≠ [])).dedup

theorem wordChar_not_ws {c : Char} (h : isWordChar c = true) : c.isWhitespace = false := by
  rw [Char.isWhitespace]
  have h1 : c ≠ ' ' := isWordChar_ne_space h
  have h2 : c ≠ '\t' := by
    intro he
    subst he
    exact absurd h (by decide)
  have h3 : c ≠ '\r' := by
    intro he
    subst he
    exact absurd h (by decide)
  have h4 : c ≠ '\n' := by
    intro he
    subst he
    exact absurd h (by decide)
  simp [h1, h2, h3, h4]

theorem ws_cases {c : Char} (h : c.isWhitespace = true) :
    c = ' ' ∨ c = '\t' ∨ c = '\r' ∨ c = '\n' := by
  rw [Char.isWhitespace] at h
  simp only [Bool.or_eq_true, decide_eq_true_eq] at h
  tauto

theorem toLower_ws {c : Char} (h : c.isWhitespace = true) : c.toLower = c := by
  rcases ws_cases h with h' | h' | h' | h' <;> subst h' <;> decide

/-- Two character maps that agree on delimiter positions and on kept
characters induce the same split. -/
theorem split_eq_of_char_rel : ∀ (orig : List Char) (f g : Char → Char),
    (∀ c, f c = ' ' ↔ (g c).isWhitespace = true) →
    (∀ c, f c ≠ ' ' → f c = g c) →
    splitOnSpace (orig.map f) = splitOnWS (orig.map g) := by
  intro orig f g hdelim hkeep
  induction orig with
  | nil => rfl
  | cons c cs ih =>
    rw [List.map_cons, List.map_cons, splitOnSpace, splitOnWS]
    by_cases hfc : f c = ' '
    · rw [if_pos hfc, if_pos ((hdelim c).mp hfc), ih]
    · have hgws : (g c).isWhitespace = false := by
        rcases hb : (g c).isWhitespace with - | -
        · rfl
        · exact absurd ((hdelim c).mpr hb) hfc
      rw [if_neg hfc, if_neg (by simp [hgws]), ih, hkeep c hfc]

/-- Characterwise relation between the code's substitution (`[^\\w ]` to
space, then lowercase) and the amended spec's substitution (keep
alphanumerics, underscores and whitespace, then lowercase). -/
theorem subChar_rel (c : Char) :
    (Char.toLower (subChar c) = ' ' ↔
      (Char.toLower (if c.isAlphanum || c == '_' || c.isWhitespace then c
        else ' ')).isWhitespace = true) ∧
    (Char.toLower (subChar c) ≠ ' ' →
      Char.toLower (subChar c) =
        Char.toLower (if c.isAlphanum || c == '_' || c.isWhitespace then c else ' ')) := by
  by_cases hw : isWordChar c = true
  · have hsub : subChar c = c := subChar_of_wordChar hw
    have hcond : (c.isAlphanum || c == '_' || c.isWhitespace) = true := by
      rw [isWordChar] at hw
      rw [Bool.or_eq_true]
      left
      exact hw
    rw [hsub, if_pos hcond]
    have hlw : isWordChar c.toLower = true := isWordChar_toLower c hw
    refine ⟨⟨fun he => absurd he (isWordChar_ne_space hlw), fun hws => ?_⟩, fun h => rfl⟩
    rw [wordChar_not_ws hlw] at hws
    exact absurd hws (by simp)
  · have hw' : isWordChar c = false := by
      simpa using hw
    have hfc : Char.toLower (subChar c) = ' ' := by
      rw [subChar]
      by_cases hs : c = ' '
      · rw [if_pos (by simp [hs]), hs]
        decide
      · rw [if_neg (by simp [hw', hs])]
        decide
    by_cases hws : c.isWhitespace = true
    · have hcond : (c.isAlphanum || c == '_' || c.isWhitespace) = true := by
        simp [hws]
      rw [if_pos hcond, toLower_ws hws]
      exact ⟨⟨fun h => hws, fun h => hfc⟩, fun hne => absurd hfc hne⟩
    · have hcond : (c.isAlphanum || c == '_' || c.isWhitespace) = false := by
        rw [isWordChar] at hw'
        simp only [Bool.or_eq_false_iff] at hw' ⊢
        refine ⟨hw', ?_⟩
        simpa using hws
      rw [if_neg (by simp [hcond])]
      exact ⟨⟨fun h => by decide, fun h => hfc⟩, fun hne => absurd hfc hne⟩

/-- The tokenizer equals the amended spec description on every input. -/
theorem parse_eq_tokenizeAmended (t : List Char) :
    parse_text_to_word t = tokenizeAmended t := by
  rw [parse_text_to_word, tokenizeAmended]
  congr 1
  congr 1
  rw [List.map_map, List.map_map]
  apply split_eq_of_char_rel
  · intro c
    simpa [Function.comp] using (subChar_rel c).1
  · intro c
    simpa [Function.comp] using (subChar_rel c).2

/-! ## Concrete material and evaluation helpers for the claims -/

def str (s : String) : List Char := s.data

/-- The spec's concrete scenario (§8): documents
`{1: "the cat sat", 2: "the dog sat", 3: "the cat ran"}`. -/
def demoDocs : List (Nat × List Char) :=
  [(1, str "the cat sat"), (2, str "the dog sat"), (3, str "the cat ran")]

/-- An index built with non-increasing identifiers (documents processed in
the order 2, 1, 3). -/
def cexDocs : List (Nat × List Char) := [(2, str "a"), (1, str "a b"), (3, str "b")]

theorem search_single_eval {idx : Index α} {q : List Char} (w : List Char) {l : List α}
    (hq : parse_text_to_word q = [w]) (hl : lookupIdx idx w = some l) :
    search idx q = some l := by
  rw [search, hq]
  rw [if_neg (by simp [hl])]
  have hmap : ([w].map (fun w => ((lookupIdx idx w).getD [], 0))) = [(l, 0)] := by
    simp [hl]
  rw [hmap, searchLoop_single]
  simp

theorem present_iff_postings {docs : List (α × List Char)} {w : Term} :
    lookupIdx (buildIndex docs) w ≠ none ↔ postings docs w ≠ [] := by
  rw [lookupIdx_buildIndex]
  by_cases h : postings docs w = []
  · simp [h]
  · simp [h]

/-! ## The claims -/

/-- Claim C1, counterexample: on the index built by `process_corpus` calls
with identifiers 2, 1, 3 (not increasing), the terms `a` and `b` are both
present and document 1 carries both, yet `search "a b"` returns `[]` — not
the intersection of the two document sets. -/
theorem claim_C1_counterexample :
    (1 : Nat) ∈ (lookupIdx (buildIndex cexDocs) (str "a")).getD [] ∧
    (1 : Nat) ∈ (lookupIdx (buildIndex cexDocs) (str "b")).getD [] ∧
    search (buildIndex cexDocs) (str "a b") = some [] := by
  have hrun : runLoop 10 [([2, 1], 0), ([1, 3], 0)] ([] : List Nat) = some (some []) := by
    decide
  have hloop : searchLoop [([2, 1], 0), ([1, 3], 0)] ([] : List Nat) = some [] :=
    runLoop_sound hrun
  refine ⟨by decide, by decide, ?_⟩
  rw [search, if_neg (by decide)]
  have hmap : ((parse_text_to_word (str "a b")).map
      (fun w => ((lookupIdx (buildIndex cexDocs) w).getD [], 0))) =
      [([2, 1], 0), ([1, 3], 0)] := by decide
  rw [hmap, hloop]

/-- Claim C1, amended: under the additional hypothesis that the
`process_corpus` calls used strictly increasing identifiers, `search "T1
T2"` for two distinct present terms returns exactly the intersection of
their document sets (no duplicates), and a query containing a term absent
from the store returns the empty result. -/
theorem claim_C1_and_semantics (docs : List (α × List Char)) (w1 w2 : Term)
    (hinc : (docs.map Prod.fst).Pairwise (· < ·))
    (h1 : lookupIdx (buildIndex docs) w1 ≠ none)
    (h2 : lookupIdx (buildIndex docs) w2 ≠ none)
    (hne : w1 ≠ w2) :
    (∃ r, search (buildIndex docs) (w1 ++ ' ' :: w2) = some r ∧ r.Nodup ∧
      ∀ x, x ∈ r ↔ x ∈ postings docs w1 ∧ x ∈ postings docs w2) ∧
    (∀ q : List Char, (∃ w ∈ parse_text_to_word q, lookupIdx (buildIndex docs) w = none) →
      search (buildIndex docs) q = some []) := by
  have hpair : (docs.map Prod.fst).Pairwise (· < ·) := hinc
  have hp1 : postings docs w1 ≠ [] := present_iff_postings.mp h1
  have hp2 : postings docs w2 ≠ [] := present_iff_postings.mp h2
  -- w1 and w2 are tokens of some processed documents
  have htok : ∀ w : Term, postings docs w ≠ [] →
      w ≠ [] ∧ ∀ c ∈ w, isWordChar c = true ∧ c.toLower = c := by
    intro w hp
    obtain ⟨d, hd⟩ := List.exists_mem_of_ne_nil _ hp
    obtain ⟨d0, -, -, hw⟩ := mem_postings.mp hd
    exact token_chars hw
  obtain ⟨hne1, hc1⟩ := htok w1 hp1
  obtain ⟨hne2, hc2⟩ := htok w2 hp2
  have hq : parse_text_to_word (w1 ++ ' ' :: w2) = [w1, w2] :=
    parse_two_tokens hne1 hne2 hc1 hc2 hne
  have hlook : ∀ w : Term, postings docs w ≠ [] →
      lookupIdx (buildIndex docs) w = some (postings docs w) := by
    intro w hp
    rw [lookupIdx_buildIndex, if_neg hp]
  refine ⟨?_, fun q hab => search_absent hab⟩
  have hall : search (buildIndex docs) (w1 ++ ' ' :: w2) =
      some (interAt ((parse_text_to_word (w1 ++ ' ' :: w2)).map
        (fun w => ((lookupIdx (buildIndex docs) w).getD [], 0)))) := by
    apply search_all_present
    · rw [hq]
      simp
    · intro w hw
      rw [hq] at hw
      rcases List.mem_cons.mp hw with h' | h'
      · rw [h', hlook w1 hp1]
        rfl
      · rcases List.mem_cons.mp h' with h'' | h''
        · rw [h'', hlook w2 hp2]
          rfl
        · simp at h''
    · intro w hw l hl
      rw [hq] at hw
      rcases List.mem_cons.mp hw with h' | h'
      · rw [h', hlook w1 hp1] at hl
        cases hl
        exact postings_sorted hpair w1
      · rcases List.mem_cons.mp h' with h'' | h''
        · rw [h'', hlook w2 hp2] at hl
          cases hl
          exact postings_sorted hpair w2
        · simp at h''
  refine ⟨_, hall, ?_, ?_⟩
  · have hsorted : (interAt ((parse_text_to_word (w1 ++ ' ' :: w2)).map
        (fun w => ((lookupIdx (buildIndex docs) w).getD [], 0)))).Pairwise (· < ·) := by
      apply interAt_sorted
      intro p hp
      obtain ⟨w, hw, rfl⟩ := List.mem_map.mp hp
      rw [hq] at hw
      rcases List.mem_cons.mp hw with h' | h'
      · rw [h', hlook w1 hp1]
        exact postings_sorted hpair w1
      · rcases List.mem_cons.mp h' with h'' | h''
        · rw [h'', hlook w2 hp2]
          exact postings_sorted hpair w2
        · simp at h''
    exact hsorted.imp (fun h => ne_of_lt h)
  · intro x
    rw [hq, mem_interAt_zero (by simp)]
    constructor
    · intro h
      have ha := h w1 (List.mem_cons_self _ _)
      have hb := h w2 (by simp)
      rw [hlook w1 hp1] at ha
      rw [hlook w2 hp2] at hb
      exact ⟨by simpa using ha, by simpa using hb⟩
    · intro h w hw
      rcases List.mem_cons.mp hw with h' | h'
      · rw [h', hlook w1 hp1]
        simpa using h.1
      · rcases List.mem_cons.mp h' with h'' | h''
        · rw [h'', hlook w2 hp2]
          simpa using h.2
        · simp at h''

/-- Witness for the amended C1 on documents 1:"a b", 2:"a": both terms
present, strictly increasing identifiers, intersection is {1}. -/
theorem claim_C1_and_semantics_witness :
    (([(1, str "a b"), ((2 : Nat), str "a")].map Prod.fst).Pairwise (· < ·) ∧
      lookupIdx (buildIndex [(1, str "a b"), ((2 : Nat), str "a")]) (str "a") ≠ none ∧
      lookupIdx (buildIndex [(1, str "a b"), ((2 : Nat), str "a")]) (str "b") ≠ none ∧
      str "a" ≠ str "b") ∧
    ((∃ r, search (buildIndex [(1, str "a b"), ((2 : Nat), str "a")])
        (str "a" ++ ' ' :: str "b") = some r ∧ r.Nodup ∧
        ∀ x, x ∈ r ↔ x ∈ postings [(1, str "a b"), ((2 : Nat), str "a")] (str "a") ∧
          x ∈ postings [(1, str "a b"), ((2 : Nat), str "a")] (str "b")) ∧
      (∀ q : List Char, (∃ w ∈ parse_text_to_word q,
          lookupIdx (buildIndex [(1, str "a b"), ((2 : Nat), str "a")]) w = none) →
        search (buildIndex [(1, str "a b"), ((2 : Nat), str "a")]) q = some [])) :=
  ⟨⟨by decide, by decide, by decide, by decide⟩,
    claim_C1_and_semantics [(1, str "a b"), ((2 : Nat), str "a")] (str "a") (str "b")
      (by decide) (by decide) (by decide) (by decide)⟩

/-- Claim C2: the spec says an empty-tokenizing query returns an empty
result and never fails, but the code evaluates `current_ids[0]` on the
empty `current_ids` (the `all(...)` over an empty generator is true) and
raises `IndexError`: the model returns `none` for every engine state. -/
theorem claim_C2_empty_query_crash (idx : Index α) (q : List Char)
    (h : parse_text_to_word q = []) : search idx q = none :=
  search_empty_query h

/-- Witness: the empty query on the non-empty three-document demo index. -/
theorem claim_C2_empty_query_crash_witness :
    parse_text_to_word [] = [] ∧ buildIndex demoDocs ≠ ([] : Index Nat) ∧
      search (buildIndex demoDocs) [] = none :=
  ⟨rfl, by decide, claim_C2_empty_query_crash (buildIndex demoDocs) [] rfl⟩

/-- Claim C3: a single-term query for a term occurring in exactly the
documents whose identifiers form the postings list returns exactly that
set of identifiers (no duplicates when each identifier was added at most
once); no sortedness is needed. -/
theorem claim_C3_single_term (docs : List (α × List Char)) (w : Term)
    (hnd : (docs.map Prod.fst).Nodup)
    (hocc : postings docs w ≠ []) :
    search (buildIndex docs) w = some (postings docs w) ∧
      (postings docs w).Nodup ∧
      ∀ x, x ∈ postings docs w ↔ ∃ d ∈ docs, d.1 = x ∧ w ∈ parse_text_to_word d.2 := by
  obtain ⟨d, hd⟩ := List.exists_mem_of_ne_nil _ hocc
  obtain ⟨d0, -, -, hw⟩ := mem_postings.mp hd
  obtain ⟨hne, hc⟩ := token_chars hw
  have hq : parse_text_to_word w = [w] := parse_single_token hne hc
  have hlook : lookupIdx (buildIndex docs) w = some (postings docs w) := by
    rw [lookupIdx_buildIndex, if_neg hocc]
  refine ⟨search_single_eval w hq hlook, postings_nodup hnd w, fun x => mem_postings⟩

/-- Witness for C3 on the demo corpus: `search "cat"` returns `[1, 3]`. -/
theorem claim_C3_single_term_witness :
    ((demoDocs.map Prod.fst).Nodup ∧ postings demoDocs (str "cat") ≠ []) ∧
      (search (buildIndex demoDocs) (str "cat") = some (postings demoDocs (str "cat")) ∧
        (postings demoDocs (str "cat")).Nodup ∧
        ∀ x, x ∈ postings demoDocs (str "cat") ↔
          ∃ d ∈ demoDocs, d.1 = x ∧ str "cat" ∈ parse_text_to_word d.2) :=
  ⟨⟨by decide, by decide⟩,
    claim_C3_single_term demoDocs (str "cat") (by decide) (by decide)⟩

/-- Claim C4: one iteration of the intersection loop with every cursor in
bounds. If all current identifiers are equal, the identifier is appended
and every cursor advances by one; otherwise the first cursor holding the
minimal current identifier — and only it — advances by one, and the result
is unchanged. -/
theorem claim_C4_loop_step (ps : List (List α × Nat)) (res : List α) (i : α)
    (ids : List α) (hc : currentIds ps = some (i :: ids)) :
    (((i :: ids).all (fun x => x = i)) = true →
      searchStep ps res = Sum.inl (ps.map (fun p => (p.1, p.2 + 1)), res ++ [i])) ∧
    (((i :: ids).all (fun x => x = i)) = false →
      ∃ pos, ∃ hlt : pos < ps.length, ∃ hlt2 : pos < (i :: ids).length,
        (i :: ids).get ⟨pos, hlt2⟩ = listMin i ids ∧
        (∀ v ∈ i :: ids, listMin i ids ≤ v) ∧
        searchStep ps res = Sum.inl (ps.take pos ++
          ((ps.get ⟨pos, hlt⟩).1, (ps.get ⟨pos, hlt⟩).2 + 1) :: ps.drop (pos + 1), res)) := by
  constructor
  · intro hall
    rw [searchStep, hc]
    simp only [hall, if_true]
  · intro hnall
    have hmm : listMin i ids ∈ i :: ids := listMin_mem i ids
    have hlt2 : indexOfV (listMin i ids) (i :: ids) < (i :: ids).length :=
      indexOfV_lt_length hmm
    have hlen : (i :: ids).length = ps.length := currentIds_length hc
    have hlt : indexOfV (listMin i ids) (i :: ids) < ps.length := by omega
    refine ⟨indexOfV (listMin i ids) (i :: ids), hlt, hlt2,
      indexOfV_get hmm hlt2, listMin_le i ids, ?_⟩
    rw [searchStep, hc]
    simp only [hnall, Bool.false_eq_true, if_false]
    rw [bumpAt_decomp ps _ hlt]

/-- Witness for C4: state `[([1,5],0), ([2],0)]` reads `current_ids =
[1,2]`, which is not all-equal, so the minimal-cursor branch applies. -/
theorem claim_C4_loop_step_witness :
    currentIds [([1, 5], 0), (([2] : List Nat), 0)] = some [1, 2] ∧
    ((((1 : Nat) :: [2]).all (fun x => x = 1)) = true →
      searchStep [([1, 5], 0), (([2] : List Nat), 0)] [] =
        Sum.inl ([([1, 5], 0), ([2], 0)].map (fun p => (p.1, p.2 + 1)), [] ++ [1])) ∧
    ((((1 : Nat) :: [2]).all (fun x => x = 1)) = false →
      ∃ pos, ∃ hlt : pos < ([([1, 5], 0), (([2] : List Nat), 0)]).length,
        ∃ hlt2 : pos < ((1 : Nat) :: [2]).length,
        (((1 : Nat) :: [2]).get ⟨pos, hlt2⟩ = listMin 1 [2]) ∧
        (∀ v ∈ (1 : Nat) :: [2], listMin 1 [2] ≤ v) ∧
        searchStep [([1, 5], 0), (([2] : List Nat), 0)] [] =
          Sum.inl (([([1, 5], 0), ([2], 0)]).take pos ++
            ((([([1, 5], 0), (([2] : List Nat), 0)]).get ⟨pos, hlt⟩).1,
              (([([1, 5], 0), (([2] : List Nat), 0)]).get ⟨pos, hlt⟩).2 + 1) ::
            ([([1, 5], 0), ([2], 0)]).drop (pos + 1), [])) := by
  refine ⟨by decide, ?_⟩
  exact claim_C4_loop_step [([1, 5], 0), ([2], 0)] [] 1 [2] (by decide)

/-- Claim C5: for a non-empty tokenized query whose terms are all present,
the intersection loop terminates: some finite number of iterations reaches
a normal return (and in fact `cursorMeasure + 1` iterations always
suffice, because every iteration advances at least one cursor). -/
theorem claim_C5_termination (idx : Index α) (query : List Char)
    (hne : parse_text_to_word query ≠ [])
    (hpres : ∀ w ∈ parse_text_to_word query, (lookupIdx idx w).isSome = true) :
    ∃ n r, runLoop n
      ((parse_text_to_word query).map (fun w => ((lookupIdx idx w).getD [], 0)))
      [] = some (some r) := by
  have hmapne : (parse_text_to_word query).map
      (fun w => ((lookupIdx idx w).getD [], 0)) ≠ [] := by
    intro he
    exact hne (by simpa using he)
  obtain ⟨r, hr⟩ := searchLoop_isSome [] hmapne
  refine ⟨cursorMeasure ((parse_text_to_word query).map
    (fun w => ((lookupIdx idx w).getD [], 0))) + 1, r, ?_⟩
  rw [runLoop_complete _ _ _ (le_refl _), hr]

/-- Witness for C5 on the demo corpus with the two-term query
`"cat sat"`. -/
theorem claim_C5_termination_witness :
    (parse_text_to_word (str "cat sat") ≠ [] ∧
      ∀ w ∈ parse_text_to_word (str "cat sat"),
        (lookupIdx (buildIndex demoDocs) w).isSome = true) ∧
    ∃ n r, runLoop n
      ((parse_text_to_word (str "cat sat")).map
        (fun w => ((lookupIdx (buildIndex demoDocs) w).getD [], 0)))
      [] = some (some r) :=
  ⟨⟨by decide, by decide⟩,
    claim_C5_termination (buildIndex demoDocs) (str "cat sat") (by decide) (by decide)⟩

/-- Claim C6: on a fixed index, every search through the cache-wrapped
engine (starting from its freshly constructed empty cache) returns exactly
what the uncached engine returns for that query — for every query
sequence, hits and misses alike, crashes included. -/
theorem claim_C6_cache_transparency (idx : Index α) (qs : List (List Char)) :
    (runQueries idx initCache qs).1 = qs.map (search idx) :=
  (runQueries_correct idx qs initCache (fun e he => absurd he (List.not_mem_nil e))).1

/-- Claim C7, counterexample: capacity 2, three pairwise distinct queries,
none re-accessed — yet the first query's cached entry is still
retrievable, because the third query's tokenization is empty, its search
raises (C2's bug), and nothing is inserted or evicted. -/
theorem claim_C7_counterexample :
    ([str "a", str "b", ([] : List Char)]).Nodup ∧
    ([str "a", str "b", ([] : List Char)]).length = 2 + 1 ∧
    (initCache : LRUCache (List Nat)).size = 2 ∧
    ((runQueries (buildIndex [((1 : Nat), str "a b")]) initCache
      [str "a", str "b", ([] : List Char)]).2).has (str "a") = true := by
  have hA : search (buildIndex [((1 : Nat), str "a b")]) (str "a") = some [1] :=
    search_single_eval (str "a") (by decide) (by decide)
  have hB : search (buildIndex [((1 : Nat), str "a b")]) (str "b") = some [1] :=
    search_single_eval (str "b") (by decide) (by decide)
  have hE : search (buildIndex [((1 : Nat), str "a b")]) ([] : List Char) = none :=
    search_empty_query rfl
  have hs1 : searchWC (buildIndex [((1 : Nat), str "a b")]) initCache (str "a") =
      (some [1], ⟨2, [(str "a", [1])]⟩) := by
    rw [searchWC, if_neg (by decide), hA]
    rfl
  have hs2 : searchWC (buildIndex [((1 : Nat), str "a b")])
      (⟨2, [(str "a", [1])]⟩ : LRUCache (List Nat)) (str "b") =
      (some [1], ⟨2, [(str "b", [1]), (str "a", [1])]⟩) := by
    rw [searchWC, if_neg (by decide), hB]
    rfl
  have hs3 : searchWC (buildIndex [((1 : Nat), str "a b")])
      (⟨2, [(str "b", [1]), (str "a", [1])]⟩ : LRUCache (List Nat)) ([] : List Char) =
      (none, ⟨2, [(str "b", [1]), (str "a", [1])]⟩) := by
    rw [searchWC, if_neg (by decide), hE]
  refine ⟨by decide, by decide, by decide, ?_⟩
  rw [runQueries, hs1]
  rw [runQueries, hs2]
  rw [runQueries, hs3]
  rw [runQueries]
  decide

/-- Claim C7, amended: with capacity `N` and `N + 1` pairwise distinct
queries whose searches all complete normally (non-empty tokenized term
sets) and none re-accessed, the cache (a) never holds more than `N`
entries under any query sequence, (b) no longer holds the first query, and
(c) a renewed search of the first query recomputes the correct result. -/
theorem claim_C7_capacity_eviction (idx : Index α) (N : Nat) (q0 : List Char)
    (rest : List (List Char))
    (hnd : (q0 :: rest).Nodup) (hlen : rest.length = N)
    (htok : ∀ q ∈ q0 :: rest, parse_text_to_word q ≠ []) :
    (∀ qs : List (List Char),
      (runQueries idx (⟨N, []⟩ : LRUCache (List α)) qs).2.entries.length ≤ N) ∧
    ((runQueries idx (⟨N, []⟩ : LRUCache (List α)) (q0 :: rest)).2).has q0 = false ∧
    (searchWC idx (runQueries idx (⟨N, []⟩ : LRUCache (List α)) (q0 :: rest)).2 q0).1 =
      search idx q0 := by
  have hlen0 : (⟨N, []⟩ : LRUCache (List α)).entries.length ≤ N := by simp
  refine ⟨fun qs => runQueries_length idx qs ⟨N, []⟩ hlen0, ?_, ?_⟩
  · have hkeys := runQueries_fresh_keys idx (q0 :: rest) ⟨N, []⟩ hnd
      (fun q hq => rfl) (fun q hq => search_isSome (htok q hq)) hlen0
    rw [Bool.eq_false_iff]
    intro hq
    have hmem := has_iff_mem_keys.mp hq
    rw [hkeys] at hmem
    simp only [List.map_nil, List.append_nil, List.reverse_cons] at hmem
    rw [List.take_left' (by simpa using hlen)] at hmem
    rw [List.mem_reverse] at hmem
    exact (List.nodup_cons.mp hnd).1 hmem
  · have hok := (runQueries_correct idx (q0 :: rest) ⟨N, []⟩
      (fun e he => absurd he (List.not_mem_nil e))).2
    exact searchWC_fst hok

/-- Witness for the amended C7: demo corpus, capacity 2, three distinct
normally-completing queries. -/
theorem claim_C7_capacity_eviction_witness :
    ((([str "cat", str "dog", str "ran"] : List (List Char))).Nodup ∧
      ([str "dog", str "ran"] : List (List Char)).length = 2 ∧
      ∀ q ∈ [str "cat", str "dog", str "ran"], parse_text_to_word q ≠ []) ∧
    ((∀ qs : List (List Char),
        (runQueries (buildIndex demoDocs) (⟨2, []⟩ : LRUCache (List Nat)) qs).2.entries.length ≤ 2) ∧
      ((runQueries (buildIndex demoDocs) (⟨2, []⟩ : LRUCache (List Nat))
        [str "cat", str "dog", str "ran"]).2).has (str "cat") = false ∧
      (searchWC (buildIndex demoDocs)
        (runQueries (buildIndex demoDocs) (⟨2, []⟩ : LRUCache (List Nat))
          [str "cat", str "dog", str "ran"]).2 (str "cat")).1 =
        search (buildIndex demoDocs) (str "cat")) :=
  ⟨⟨by decide, by decide, by decide⟩,
    claim_C7_capacity_eviction (buildIndex demoDocs) 2 (str "cat")
      [str "dog", str "ran"] (by decide) (by decide) (by decide)⟩

/-- Claim C8, counterexample: Python's `\w` keeps underscores, so the
tokenizer does not replace every non-alphanumeric non-whitespace character
by a space. On `"a_b"` the code produces the single token `"a_b"`, while
the claimed description produces `"a"` and `"b"`. -/
theorem claim_C8_counterexample :
    parse_text_to_word (str "a_b") = [str "a_b"] ∧
    tokenizeSpec (str "a_b") = [str "a", str "b"] ∧
    parse_text_to_word (str "a_b") ≠ tokenizeSpec (str "a_b") := by
  refine ⟨by decide, by decide, by decide⟩

/-- Claim C8, amended: the tokenizer replaces every character that is not
alphanumeric, not an underscore and not whitespace with a single space,
case-folds, splits on whitespace, drops empty tokens and returns the set;
it is a total function and the empty input yields the empty set. -/
theorem claim_C8_tokenizer :
    (∀ t : List Char, parse_text_to_word t = tokenizeAmended t) ∧
    parse_text_to_word [] = [] :=
  ⟨parse_eq_tokenizeAmended, rfl⟩

/-- Claim C9, counterexample: the cache stores a reference, not a copy.
With one document `1 : "cat"`, the first `search "cat"` returns the object
at address 0 holding `[1]`; writing `[99]` through that address and
searching `"cat"` again (a cache hit) returns the same address, now
holding `[99]` — the cached entry was corrupted by mutating the returned
result. -/
theorem claim_C9_counterexample :
    searchWCRef (buildIndex [((1 : Nat), str "cat")]) ⟨[]⟩ ⟨2, []⟩ (str "cat") =
      (⟨[[1]]⟩, ⟨2, [(str "cat", 0)]⟩, some 0) ∧
    Heap.read (⟨[[1]]⟩ : Heap Nat) 0 = [1] ∧
    searchWCRef (buildIndex [((1 : Nat), str "cat")])
      (Heap.write ⟨[[1]]⟩ 0 [99]) ⟨2, [(str "cat", 0)]⟩ (str "cat") =
      (⟨[[99]]⟩, ⟨2, [(str "cat", 0)]⟩, some 0) ∧
    Heap.read (⟨[[99]]⟩ : Heap Nat) 0 = [99] ∧ ([99] : List Nat) ≠ [1] := by
  have hsearch : search (buildIndex [((1 : Nat), str "cat")]) (str "cat") = some [1] :=
    search_single_eval (str "cat") (by decide) (by decide)
  refine ⟨?_, by decide, ?_, by decide, by decide⟩
  · rw [searchWCRef, if_neg (by decide), hsearch]
    rfl
  · rw [searchWCRef, if_pos (by decide)]
    rfl

/-- Claim C9, amended: the cache stores results by reference. After a miss
on `q` returns the fresh object at address `a`, a subsequent lookup of `q`
is a hit returning the same address, so every mutation written through the
returned address is visible in what the next `search q` returns. -/
theorem claim_C9_aliasing {idx : Index α} {h : Heap α} {c : LRUCache Nat}
    {q : List Char} {r : List α}
    (hmiss : c.has q = false) (hr : search idx q = some r) (hsz : 1 ≤ c.size) :
    ∃ h1 c1 a, searchWCRef idx h c q = (h1, c1, some a) ∧
      h1.read a = r ∧
      ∀ v : List α,
        (searchWCRef idx (h1.write a v) c1 q).2.2 = some a ∧
        ((searchWCRef idx (h1.write a v) c1 q).1).read a = v :=
  searchWCRef_alias hmiss hr hsz

/-- Witness for the amended C9 on the one-document index. -/
theorem claim_C9_aliasing_witness :
    ((⟨2, []⟩ : LRUCache Nat).has (str "cat") = false ∧
      search (buildIndex [((1 : Nat), str "cat")]) (str "cat") = some [1] ∧
      1 ≤ (⟨2, []⟩ : LRUCache Nat).size) ∧
    (∃ h1 c1 a, searchWCRef (buildIndex [((1 : Nat), str "cat")])
        (⟨[]⟩ : Heap Nat) ⟨2, []⟩ (str "cat") = (h1, c1, some a) ∧
      h1.read a = [1] ∧
      ∀ v : List Nat,
        (searchWCRef (buildIndex [((1 : Nat), str "cat")]) (h1.write a v) c1
          (str "cat")).2.2 = some a ∧
        ((searchWCRef (buildIndex [((1 : Nat), str "cat")]) (h1.write a v) c1
          (str "cat")).1).read a = v) :=
  ⟨⟨rfl, search_single_eval (str "cat") (by decide) (by decide), by decide⟩,
    claim_C9_aliasing rfl (search_single_eval (str "cat") (by decide) (by decide))
      (by decide)⟩

/-- Claim C10: with each identifier processed at most once and in strictly
increasing order, a query with a non-empty token set whose terms are all
present returns exactly the identifiers common to all the terms' postings
lists, in strictly increasing order and without duplicates. -/
theorem claim_C10_sorted_intersection (docs : List (α × List Char)) (query : List Char)
    (hinc : (docs.map Prod.fst).Pairwise (· < ·))
    (hne : parse_text_to_word query ≠ [])
    (hpres : ∀ w ∈ parse_text_to_word query, lookupIdx (buildIndex docs) w ≠ none) :
    ∃ r, search (buildIndex docs) query = some r ∧
      r.Pairwise (· < ·) ∧ r.Nodup ∧
      ∀ x, x ∈ r ↔ ∀ w ∈ parse_text_to_word query, x ∈ postings docs w := by
  have hpost : ∀ w ∈ parse_text_to_word query, postings docs w ≠ [] :=
    fun w hw => present_iff_postings.mp (hpres w hw)
  have hlook : ∀ w ∈ parse_text_to_word query,
      lookupIdx (buildIndex docs) w = some (postings docs w) := by
    intro w hw
    rw [lookupIdx_buildIndex, if_neg (hpost w hw)]
  have hall : search (buildIndex docs) query =
      some (interAt ((parse_text_to_word query).map
        (fun w => ((lookupIdx (buildIndex docs) w).getD [], 0)))) := by
    apply search_all_present hne
    · intro w hw
      rw [hlook w hw]
      rfl
    · intro w hw l hl
      rw [hlook w hw] at hl
      cases hl
      exact postings_sorted hinc w
  have hsorted : (interAt ((parse_text_to_word query).map
      (fun w => ((lookupIdx (buildIndex docs) w).getD [], 0)))).Pairwise (· < ·) := by
    apply interAt_sorted
    intro p hp
    obtain ⟨w, hw, rfl⟩ := List.mem_map.mp hp
    rw [hlook w hw]
    exact postings_sorted hinc w
  refine ⟨_, hall, hsorted, hsorted.imp (fun h => ne_of_lt h), ?_⟩
  intro x
  rw [mem_interAt_zero hne]
  constructor
  · intro h w hw
    have := h w hw
    rw [hlook w hw] at this
    simpa using this
  · intro h w hw
    rw [hlook w hw]
    simpa using h w hw

/-- Witness for C10 on the demo corpus with query `"cat sat"`: the common
documents of `cat` ({1,3}) and `sat` ({1,2}) are exactly {1}. -/
theorem claim_C10_sorted_intersection_witness :
    ((demoDocs.map Prod.fst).Pairwise (· < ·) ∧
      parse_text_to_word (str "cat sat") ≠ [] ∧
      ∀ w ∈ parse_text_to_word (str "cat sat"),
        lookupIdx (buildIndex demoDocs) w ≠ none) ∧
    (∃ r, search (buildIndex demoDocs) (str "cat sat") = some r ∧
      r.Pairwise (· < ·) ∧ r.Nodup ∧
      ∀ x, x ∈ r ↔ ∀ w ∈ parse_text_to_word (str "cat sat"),
        x ∈ postings demoDocs w) :=
  ⟨⟨by decide, by decide, by decide⟩,
    claim_C10_sorted_intersection demoDocs (str "cat sat")
      (by decide) (by decide) (by decide)⟩

end Pysegine
